import Mathlib

/-!
Verification development for the voice-forge audio session and
resource-lifecycle manager.

The TypeScript source is shallowly embedded: each class becomes a Lean
structure holding its mutable fields, each method a pure function from the
old state to the new one.  Asynchronous methods are embedded at the
granularity of the JavaScript event loop: code between two `await`
suspension points is one atomic step, and the concurrency limiter is given
an explicit microtask queue so that interleavings of concurrently submitted
tasks can be examined.  Machine integers are modelled as `Nat` (all the
quantities involved — byte sizes, millisecond timestamps, counters — are
nonnegative and far below 2^53, where JavaScript number arithmetic is
exact).
-/

namespace VoiceForge

/-! ## Association lists with string keys

JavaScript plain objects and `Map`s keyed by strings are embedded as
insertion-ordered association lists.  `setA` models property assignment
(overwrite in place, or append for a fresh key), `eraseA` models `delete`,
`findA` models indexing. -/

def findA {α : Type} : List (String × α) → String → Option α
  | [], _ => none
  | p :: r, k => if p.1 = k then some p.2 else findA r k

def setA {α : Type} : List (String × α) → String → α → List (String × α)
  | [], k, v => [(k, v)]
  | p :: r, k, v => if p.1 = k then (k, v) :: r else p :: setA r k v

def eraseA {α : Type} : List (String × α) → String → List (String × α)
  | [], _ => []
  | p :: r, k => if p.1 = k then eraseA r k else p :: eraseA r k

def keysA {α : Type} (l : List (String × α)) : List String := l.map (·.1)

theorem findA_eraseA_self {α : Type} (l : List (String × α)) (k : String) :
    findA (eraseA l k) k = none := by
  induction l with
  | nil => rfl
  | cons p r ih =>
    by_cases h : p.1 = k
    · simpa [eraseA, h] using ih
    · simp [eraseA, findA, h, ih]

theorem findA_eraseA_ne {α : Type} (l : List (String × α)) (k j : String) (h : j ≠ k) :
    findA (eraseA l k) j = findA l j := by
  induction l with
  | nil => rfl
  | cons p r ih =>
    by_cases hp : p.1 = k
    · have hpj : ¬ p.1 = j := by rw [hp]; exact fun hc => h hc.symm
      rw [eraseA, if_pos hp, ih, findA, if_neg hpj]
    · by_cases hj : p.1 = j
      · rw [eraseA, if_neg hp, findA, if_pos hj, findA, if_pos hj]
      · rw [eraseA, if_neg hp, findA, if_neg hj, ih, findA, if_neg hj]

theorem findA_setA_self {α : Type} (l : List (String × α)) (k : String) (v : α) :
    findA (setA l k v) k = some v := by
  induction l with
  | nil => simp [setA, findA]
  | cons p r ih =>
    by_cases h : p.1 = k
    · rw [setA, if_pos h, findA, if_pos rfl]
    · rw [setA, if_neg h, findA, if_neg h, ih]

theorem findA_setA_ne {α : Type} (l : List (String × α)) (k j : String) (v : α)
    (h : j ≠ k) : findA (setA l k v) j = findA l j := by
  induction l with
  | nil =>
    simp only [setA, findA]
    rw [if_neg (show ¬ k = j from fun hc => h hc.symm)]
  | cons p r ih =>
    by_cases hp : p.1 = k
    · have hpj : ¬ p.1 = j := by rw [hp]; exact fun hc => h hc.symm
      rw [setA, if_pos hp, findA, if_neg (fun hc => h hc.symm), findA, if_neg hpj]
    · by_cases hj : p.1 = j
      · rw [setA, if_neg hp, findA, if_pos hj, findA, if_pos hj]
      · rw [setA, if_neg hp, findA, if_neg hj, ih, findA, if_neg hj]

theorem findA_none_of_not_mem_keys {α : Type} {l : List (String × α)} {k : String}
    (h : k ∉ keysA l) : findA l k = none := by
  induction l with
  | nil => rfl
  | cons p r ih =>
    have h1 : p.1 ≠ k := fun hc => h (by simp [keysA, hc])
    have h2 : k ∉ keysA r := fun hc => h (by simp [keysA] at hc ⊢; exact Or.inr hc)
    simp [findA, h1, ih h2]

theorem mem_keys_of_findA_some {α : Type} {l : List (String × α)} {k : String} {v : α}
    (h : findA l k = some v) : k ∈ keysA l := by
  induction l with
  | nil => simp [findA] at h
  | cons p r ih =>
    by_cases hp : p.1 = k
    · simp [keysA, hp]
    · simp only [findA, hp, if_false] at h
      simp [keysA] at ih ⊢
      exact Or.inr (ih h)

theorem eraseA_of_findA_none {α : Type} {l : List (String × α)} {k : String}
    (h : findA l k = none) : eraseA l k = l := by
  induction l with
  | nil => rfl
  | cons p r ih =>
    by_cases hp : p.1 = k
    · simp [findA, hp] at h
    · simp only [findA, hp, if_false] at h
      simp [eraseA, hp, ih h]

theorem keysA_setA {α : Type} (l : List (String × α)) (k : String) (v : α) :
    keysA (setA l k v) = keysA l ∨ keysA (setA l k v) = keysA l ++ [k] := by
  induction l with
  | nil => right; rfl
  | cons p r ih =>
    by_cases hp : p.1 = k
    · left; simp [setA, hp, keysA]
    · rcases ih with h | h
      · left; simp [setA, hp, keysA] at h ⊢; exact h
      · right; simp [setA, hp, keysA] at h ⊢; exact h

theorem nodup_keysA_setA {α : Type} {l : List (String × α)} (k : String) (v : α)
    (h : (keysA l).Nodup) : (keysA (setA l k v)).Nodup := by
  induction l with
  | nil => simp [setA, keysA]
  | cons p r ih =>
    simp only [keysA, List.map_cons, List.nodup_cons] at h
    by_cases hp : p.1 = k
    · rw [setA, if_pos hp]
      simp only [keysA, List.map_cons, List.nodup_cons]
      refine ⟨?_, h.2⟩
      rw [← hp]; exact h.1
    · rw [setA, if_neg hp]
      simp only [keysA, List.map_cons, List.nodup_cons]
      refine ⟨?_, ih h.2⟩
      intro hc
      rcases keysA_setA r k v with he | he
      · rw [show (setA r k v).map (·.1) = keysA (setA r k v) from rfl, he] at hc
        exact h.1 hc
      · rw [show (setA r k v).map (·.1) = keysA (setA r k v) from rfl, he] at hc
        rcases List.mem_append.mp hc with hc2 | hc2
        · exact h.1 hc2
        · simp at hc2; exact hp hc2

/-! ## Playback session manager (`src/lib/audio-manager.ts`, class `AudioManager`)

`instances` embeds the `Map<string, AudioInstance>` (insertion ordered);
each instance keeps its `url` and the `paused` flag of its underlying
`HTMLAudioElement`.  `currentPlayingId` is the manager's single
"currently playing" pointer.  `playAudio` is embedded at whole-call
granularity: the outcome of `await instance.audio.play()` is the boolean
parameter `playOk`. -/

structure AMInst where
  url : String
  paused : Bool
deriving DecidableEq, Repr

structure AMState where
  instances : List (String × AMInst)
  currentPlayingId : Option String
deriving DecidableEq, Repr

def AMState.init : AMState := ⟨[], none⟩

def pauseAudio (st : AMState) (id : String) : AMState :=
  match findA st.instances id with
  | some inst =>
    { instances := setA st.instances id { inst with paused := true },
      currentPlayingId := if st.currentPlayingId = some id then none else st.currentPlayingId }
  | none => st

/-- The `cleanup` closure installed by `createAudio`: pauses and tears down
the element, revokes a blob url, deletes the instance from the map and
clears `currentPlayingId` when it pointed at this id. -/
def cleanupInst (st : AMState) (id : String) : AMState :=
  { instances := eraseA st.instances id,
    currentPlayingId := if st.currentPlayingId = some id then none else st.currentPlayingId }

def stopAudio (st : AMState) (id : String) : AMState :=
  match findA st.instances id with
  | some _ => cleanupInst st id
  | none => st

def stopAllAudio (_st : AMState) : AMState := ⟨[], none⟩

def createAudio (st : AMState) (id url : String) : AMState :=
  let st1 := stopAudio st id
  { st1 with instances := st1.instances ++ [(id, ⟨url, true⟩)] }

/-- First step of `playAudio`: `if (currentPlayingId && currentPlayingId !== id)
pauseAudio(currentPlayingId)`. -/
def playPauseCurrent (st : AMState) (id : String) : AMState :=
  match st.currentPlayingId with
  | some c => if c ≠ id then pauseAudio st c else st
  | none => st

/-- Second step of `playAudio`: create the instance when missing and a url
was supplied. -/
def playEnsureInstance (st : AMState) (id : String) (url : Option String) : AMState :=
  match findA st.instances id, url with
  | none, some u => createAudio st id u
  | _, _ => st

/-- The manager state right before `await instance.audio.play()`: the
previously playing session has been paused and the instance for `id`
created when missing. -/
def playTarget (st : AMState) (id : String) (url : Option String) : AMState :=
  playEnsureInstance (playPauseCurrent st id) id url

/-- `playAudio(id, url?)`.  Returns the new state and whether the returned
promise resolved (`true`) or rejected (`false`); the outcome of
`await instance.audio.play()` is the parameter `playOk`. -/
def playAudio (st : AMState) (id : String) (url : Option String) (playOk : Bool) :
    AMState × Bool :=
  match findA (playTarget st id url).instances id with
  | none => ({ playTarget st id url with currentPlayingId := none }, false)
  | some inst =>
    if playOk then
      ({ playTarget st id url with
          currentPlayingId := some id,
          instances := setA (playTarget st id url).instances id
            { inst with paused := false } }, true)
    else
      ({ playTarget st id url with currentPlayingId := none }, false)

/-- `isPlaying(id)` returns `this.currentPlayingId === id`. -/
def isPlaying (st : AMState) (id : String) : Bool :=
  st.currentPlayingId == some id

theorem isPlaying_iff {st : AMState} {id : String} :
    isPlaying st id = true ↔ st.currentPlayingId = some id := by
  unfold isPlaying
  exact beq_iff_eq

/-- The operations a caller can perform on the manager, for quantifying over
reachable states. -/
inductive AMOp where
  | create (id url : String)
  | play (id : String) (url : Option String) (playOk : Bool)
  | pause (id : String)
  | stop (id : String)
  | stopAll
deriving DecidableEq, Repr

def applyAMOp (st : AMState) : AMOp → AMState
  | .create id url => createAudio st id url
  | .play id url ok => (playAudio st id url ok).1
  | .pause id => pauseAudio st id
  | .stop id => stopAudio st id
  | .stopAll => stopAllAudio st

/-- Reachability invariant of the manager: whenever `currentPlayingId` is
set, the corresponding instance is present in the map. -/
def AMInv (st : AMState) : Prop :=
  ∀ c, st.currentPlayingId = some c → (findA st.instances c).isSome

theorem amInv_init : AMInv AMState.init := by
  intro c hc; simp [AMState.init] at hc

theorem findA_append_left {α : Type} {l1 : List (String × α)} (l2 : List (String × α))
    {k : String} {v : α} (h : findA l1 k = some v) : findA (l1 ++ l2) k = some v := by
  induction l1 with
  | nil => simp [findA] at h
  | cons p r ih =>
    by_cases hp : p.1 = k
    · rw [findA, if_pos hp] at h
      rw [List.cons_append, findA, if_pos hp]
      exact h
    · rw [findA, if_neg hp] at h
      rw [List.cons_append, findA, if_neg hp]
      exact ih h

theorem amInv_pause {st : AMState} (h : AMInv st) (id : String) :
    AMInv (pauseAudio st id) := by
  unfold pauseAudio
  cases hf : findA st.instances id with
  | none => exact h
  | some inst =>
    intro c hc
    have hc2 : (if st.currentPlayingId = some id then none else st.currentPlayingId)
        = some c := hc
    show (findA (setA st.instances id { inst with paused := true }) c).isSome
    by_cases hcur : st.currentPlayingId = some id
    · rw [if_pos hcur] at hc2; cases hc2
    · rw [if_neg hcur] at hc2
      have hm := h c hc2
      by_cases hci : c = id
      · subst hci; rw [findA_setA_self]; rfl
      · rw [findA_setA_ne _ _ _ _ hci]; exact hm

theorem amInv_cleanup {st : AMState} (h : AMInv st) (id : String) :
    AMInv (cleanupInst st id) := by
  intro c hc
  have hc2 : (if st.currentPlayingId = some id then none else st.currentPlayingId)
      = some c := hc
  show (findA (eraseA st.instances id) c).isSome
  by_cases hcur : st.currentPlayingId = some id
  · rw [if_pos hcur] at hc2; cases hc2
  · rw [if_neg hcur] at hc2
    have hcid : c ≠ id := by
      intro he; subst he; exact hcur hc2
    rw [findA_eraseA_ne _ _ _ hcid]
    exact h c hc2

theorem amInv_stop {st : AMState} (h : AMInv st) (id : String) :
    AMInv (stopAudio st id) := by
  unfold stopAudio
  cases findA st.instances id with
  | none => exact h
  | some _ => exact amInv_cleanup h id

theorem amInv_create {st : AMState} (h : AMInv st) (id url : String) :
    AMInv (createAudio st id url) := by
  intro c hc
  have hc2 : (stopAudio st id).currentPlayingId = some c := hc
  show (findA ((stopAudio st id).instances ++ [(id, ⟨url, true⟩)]) c).isSome
  have h2 := amInv_stop h id c hc2
  cases hf : findA (stopAudio st id).instances c with
  | none => rw [hf] at h2; cases h2
  | some v => rw [findA_append_left _ hf]; rfl

theorem amInv_playPause {st : AMState} (h : AMInv st) (id : String) :
    AMInv (playPauseCurrent st id) := by
  unfold playPauseCurrent
  cases st.currentPlayingId with
  | none => exact h
  | some c =>
    by_cases hc : c ≠ id
    · simp only [if_pos hc]; exact amInv_pause h c
    · simp only [if_neg hc]; exact h

theorem amInv_playEnsure {st : AMState} (h : AMInv st) (id : String)
    (url : Option String) : AMInv (playEnsureInstance st id url) := by
  unfold playEnsureInstance
  cases findA st.instances id with
  | none =>
    cases url with
    | none => exact h
    | some u => exact amInv_create h id u
  | some v => cases url <;> exact h

theorem amInv_play {st : AMState} (_h : AMInv st) (id : String) (url : Option String)
    (ok : Bool) : AMInv (playAudio st id url ok).1 := by
  unfold playAudio
  cases hf : findA (playTarget st id url).instances id with
  | none => intro c hc; cases hc
  | some inst =>
    cases ok with
    | false => intro c hc; cases hc
    | true =>
      intro c hc
      have hc2 : some id = some c := hc
      cases hc2
      show (findA (setA (playTarget st id url).instances id
        { inst with paused := false }) id).isSome
      rw [findA_setA_self]; rfl

theorem amInv_step {st : AMState} (h : AMInv st) (op : AMOp) : AMInv (applyAMOp st op) := by
  cases op with
  | create id url => exact amInv_create h id url
  | play id url ok => exact amInv_play h id url ok

  | pause id => exact amInv_pause h id
  | stop id => exact amInv_stop h id
  | stopAll => intro c hc; simp [applyAMOp, stopAllAudio] at hc

theorem findA_append_sing_ne {α : Type} (l : List (String × α)) {A B : String} (v : α)
    (h : A ≠ B) : findA (l ++ [(B, v)]) A = findA l A := by
  induction l with
  | nil =>
    rw [List.nil_append, findA]
    simp only [findA]
    rw [if_neg (show ¬ B = A from fun hc => h hc.symm)]
  | cons p r ih =>
    by_cases hp : p.1 = A
    · rw [List.cons_append, findA, if_pos hp, findA, if_pos hp]
    · rw [List.cons_append, findA, if_neg hp, findA, if_neg hp, ih]

theorem stopAudio_findA_ne (st : AMState) {A B : String} (h : A ≠ B) :
    findA (stopAudio st B).instances A = findA st.instances A := by
  unfold stopAudio
  cases findA st.instances B with
  | none => rfl
  | some inst =>
    show findA (eraseA st.instances B) A = findA st.instances A
    exact findA_eraseA_ne _ _ _ h

theorem createAudio_findA_ne (st : AMState) {A B : String} (u : String) (h : A ≠ B) :
    findA (createAudio st B u).instances A = findA st.instances A := by
  unfold createAudio
  show findA ((stopAudio st B).instances ++ [(B, ⟨u, true⟩)]) A = findA st.instances A
  rw [findA_append_sing_ne _ _ h, stopAudio_findA_ne st h]

theorem playEnsure_findA_ne (st : AMState) {A B : String} (url : Option String)
    (h : A ≠ B) : findA (playEnsureInstance st B url).instances A = findA st.instances A := by
  unfold playEnsureInstance
  cases findA st.instances B with
  | none =>
    cases url with
    | none => rfl
    | some u => exact createAudio_findA_ne st u h
  | some v => cases url <;> rfl

theorem playTarget_pausedA {st : AMState} {A B : String} {url : Option String}
    (hAB : A ≠ B) (hcur : st.currentPlayingId = some A) :
    ∀ inst, findA (playTarget st B url).instances A = some inst → inst.paused = true := by
  intro inst hfind
  unfold playTarget playPauseCurrent at hfind
  rw [hcur] at hfind
  have hfind2 : findA (playEnsureInstance (if A ≠ B then pauseAudio st A else st) B url).instances A
      = some inst := hfind
  rw [if_pos hAB, playEnsure_findA_ne _ _ hAB] at hfind2
  unfold pauseAudio at hfind2
  cases hfa : findA st.instances A with
  | none => rw [hfa] at hfind2; rw [hfa] at hfind2; cases hfind2
  | some i =>
    rw [hfa] at hfind2
    have hfind3 : findA (setA st.instances A { i with paused := true }) A = some inst := hfind2
    rw [findA_setA_self] at hfind3
    cases hfind3
    rfl

/-- **C1** Single-active-session invariant of `AudioManager`: (1) at any
instant at most one id is reported `Playing` (`isPlaying`); (2) after
`playAudio(B)` resolves, `isPlaying(B)` is `true` and `isPlaying(A)` is
`false` for every other id `A`; (3) starting the new session stops
(pauses) whichever session was previously playing: the previously playing
instance's element is paused in the resulting state. -/
theorem playAudio_single_active (st : AMState) (A B : String) (url : Option String)
    (ok : Bool) (hAB : A ≠ B) :
    (∀ s : AMState, ∀ x y : String,
        isPlaying s x = true → isPlaying s y = true → x = y) ∧
    ((playAudio st B url ok).2 = true →
      isPlaying (playAudio st B url ok).1 B = true ∧
      isPlaying (playAudio st B url ok).1 A = false) ∧
    (st.currentPlayingId = some A →
      ∀ inst, findA (playAudio st B url ok).1.instances A = some inst →
        inst.paused = true) := by
  refine ⟨?_, ?_, ?_⟩
  · intro s x y hx hy
    rw [isPlaying_iff] at hx hy
    rw [hx] at hy
    exact Option.some.inj hy
  · unfold playAudio
    cases hf : findA (playTarget st B url).instances B with
    | none => intro hok; cases hok
    | some inst =>
      cases ok with
      | false => intro hok; cases hok
      | true =>
        intro _
        constructor
        · rw [isPlaying_iff]
          rfl
        · show ((some B : Option String) == some A) = false
          rw [beq_eq_false_iff_ne]
          intro hc
          exact hAB (Option.some.inj hc).symm
  · intro hcur inst hfind
    refine @playTarget_pausedA st A B url hAB hcur inst ?_
    unfold playAudio at hfind
    cases hf : findA (playTarget st B url).instances B with
    | none =>
      rw [hf] at hfind
      exact hfind
    | some i =>
      rw [hf] at hfind
      cases ok with
      | false => exact hfind
      | true =>
        have hfind2 : findA (setA (playTarget st B url).instances B
            { i with paused := false }) A = some inst := hfind
        rw [findA_setA_ne _ _ _ _ hAB] at hfind2
        exact hfind2

/-- A concrete manager state: session `a` exists and is playing, session
`b` exists and is paused. -/
def amDemo : AMState := ⟨[("a", ⟨"ua", false⟩), ("b", ⟨"ub", true⟩)], some "a"⟩

/-- Witness for C1 at a concrete state, together with the fact that the
`playAudio` call in question indeed resolves. -/
theorem playAudio_single_active_witness :
    (("a" : String) ≠ "b" ∧ (playAudio amDemo "b" none true).2 = true) ∧
    ((∀ s : AMState, ∀ x y : String,
        isPlaying s x = true → isPlaying s y = true → x = y) ∧
    ((playAudio amDemo "b" none true).2 = true →
      isPlaying (playAudio amDemo "b" none true).1 "b" = true ∧
      isPlaying (playAudio amDemo "b" none true).1 "a" = false) ∧
    (amDemo.currentPlayingId = some "a" →
      ∀ inst, findA (playAudio amDemo "b" none true).1.instances "a" = some inst →
        inst.paused = true)) :=
  ⟨⟨by decide, by decide⟩, playAudio_single_active amDemo "a" "b" none true (by decide)⟩

/-- **C9** Stop semantics of `AudioManager`: in every reachable manager
state (characterised by the invariant `AMInv`), `isPlaying(id)` is `false`
immediately after `stopAudio(id)`, and `stopAudio` on an id with no
session leaves the state untouched (a no-op that returns without error). -/
theorem stopAudio_then_not_playing (st : AMState) (id : String) (h : AMInv st) :
    isPlaying (stopAudio st id) id = false ∧
    (findA st.instances id = none → stopAudio st id = st) := by
  constructor
  · unfold stopAudio
    cases hf : findA st.instances id with
    | none =>
      cases hcs : st.currentPlayingId with
      | none => unfold isPlaying; rw [hcs]; rfl
      | some c =>
        by_cases hci : c = id
        · subst hci
          have := h c hcs
          rw [hf] at this
          cases this
        · unfold isPlaying
          rw [hcs]
          rw [beq_eq_false_iff_ne]
          intro hc
          exact hci (Option.some.inj hc)
    | some inst =>
      show isPlaying (cleanupInst st id) id = false
      unfold cleanupInst isPlaying
      by_cases hcur : st.currentPlayingId = some id
      · simp only [if_pos hcur]; rfl
      · simp only [if_neg hcur]
        rw [beq_eq_false_iff_ne]
        exact hcur
  · intro hf
    unfold stopAudio
    rw [hf]

/-- Witness for C9: `amDemo` satisfies the reachability invariant, and the
theorem applies to it; additionally `stopAudio` on the absent id `"zz"` is
indeed a no-op there. -/
theorem stopAudio_then_not_playing_witness :
    (isPlaying (stopAudio amDemo "a") "a" = false ∧
      (findA amDemo.instances "a" = none → stopAudio amDemo "a" = amDemo)) ∧
    (isPlaying (stopAudio amDemo "zz") "zz" = false ∧
      (findA amDemo.instances "zz" = none → stopAudio amDemo "zz" = amDemo)) := by
  have hinv : AMInv amDemo := by
    intro c hc
    have hc2 : some "a" = some c := hc
    cases hc2
    decide
  exact ⟨stopAudio_then_not_playing amDemo "a" hinv,
    stopAudio_then_not_playing amDemo "zz" hinv⟩

/-! ## Resource registry (`PerformanceManager` blob registry)

`blobRegistry` is a string-keyed object whose values record the object URL
(embedded as a fresh natural number handed out by `nextUrl`, modelling
`URL.createObjectURL`), creation/access timestamps and the blob size.
`revoked` is the ghost list of URLs passed to `URL.revokeObjectURL`. -/

structure BlobEntry where
  url : Nat
  createdAt : Nat
  lastAccessed : Nat
  size : Nat
deriving DecidableEq, Repr

structure PerfState where
  registry : List (String × BlobEntry)
  revoked : List Nat
  nextUrl : Nat
deriving DecidableEq, Repr

def maxBlobSize : Nat := 100 * 1024 * 1024

/-- `this.maxBlobSize * 0.8`.  `104857600 * 0.8` is computed exactly in
double-precision arithmetic, so the threshold is the integer `83886080`. -/
def budgetFloor : Nat := 83886080

def totalSize (reg : List (String × BlobEntry)) : Nat := (reg.map (·.2.size)).sum

/-- `revokeBlobUrl(id)`: revoke the object URL and delete the entry; no-op
when the id is not registered. -/
def revokeBlobUrl (st : PerfState) (id : String) : PerfState :=
  match findA st.registry id with
  | some e =>
    { st with revoked := st.revoked ++ [e.url], registry := eraseA st.registry id }
  | none => st

/-- `accessBlobUrl(id)`: return the url and refresh `lastAccessed`, or
`null` when the id is not registered. -/
def accessBlobUrl (st : PerfState) (id : String) (now : Nat) : Option Nat × PerfState :=
  match findA st.registry id with
  | some e =>
    (some e.url, { st with registry := setA st.registry id { e with lastAccessed := now } })
  | none => (none, st)

/-- The comparator `(a, b) => a.lastAccessed - b.lastAccessed` used to sort
registry entries before eviction. -/
def entryLE (a b : String × BlobEntry) : Prop := a.2.lastAccessed ≤ b.2.lastAccessed

instance : DecidableRel entryLE := fun _ _ => Nat.decLe _ _

instance : IsTotal (String × BlobEntry) entryLE := ⟨fun _ _ => Nat.le_total _ _⟩

instance : IsTrans (String × BlobEntry) entryLE := ⟨fun _ _ _ => Nat.le_trans⟩

/-- The ids revoked by the eviction loop of `checkMemoryUsage`: walk the
entries sorted by `lastAccessed` and keep evicting while the removed size
is still below the target reduction. -/
def evictIds : List (String × BlobEntry) → Nat → Nat → List String
  | [], _, _ => []
  | p :: rest, removed, target =>
    if target ≤ removed then [] else p.1 :: evictIds rest (removed + p.2.size) target

/-- `checkMemoryUsage()`: when the aggregate size exceeds `maxBlobSize`,
revoke lowest-`lastAccessed` entries until the target reduction
(`totalSize - maxBlobSize * 0.8`) is reached. -/
def checkMemoryUsage (st : PerfState) : PerfState :=
  if maxBlobSize < totalSize st.registry then
    (evictIds (List.insertionSort entryLE st.registry) 0
      (totalSize st.registry - budgetFloor)).foldl revokeBlobUrl st
  else st

/-- `createBlobUrl(blob, id)`: create a fresh object URL, overwrite the
registry slot for `id`, then run the budget check. -/
def createBlobUrl (st : PerfState) (id : String) (size : Nat) (now : Nat) :
    Nat × PerfState :=
  (st.nextUrl,
    checkMemoryUsage
      { st with
          registry := setA st.registry id ⟨st.nextUrl, now, now, size⟩,
          nextUrl := st.nextUrl + 1 })

def maxBlobAge : Nat := 30 * 60 * 1000

/-- `cleanupBlobs()`: the periodic sweep; revoke entries older than
`maxBlobAge` or unaccessed for more than `maxBlobAge / 2`. -/
def cleanupBlobs (st : PerfState) (now : Nat) : PerfState :=
  st.registry.foldl
    (fun s p =>
      if maxBlobAge < now - p.2.createdAt ∨ maxBlobAge / 2 < now - p.2.lastAccessed then
        revokeBlobUrl s p.1
      else s)
    st

/-- `cleanup()` restricted to the registry: revoke every registered id. -/
def cleanupAllBlobs (st : PerfState) : PerfState :=
  (keysA st.registry).foldl revokeBlobUrl st

/-- The registry operations a caller can perform, for quantifying over all
continuations of an execution. -/
inductive PerfOp where
  | create (id : String) (size now : Nat)
  | access (id : String) (now : Nat)
  | revoke (id : String)
  | sweep (now : Nat)
  | cleanupAll
deriving DecidableEq, Repr

def applyPerfOp (st : PerfState) : PerfOp → PerfState
  | .create id size now => (createBlobUrl st id size now).2
  | .access id now => (accessBlobUrl st id now).2
  | .revoke id => revokeBlobUrl st id
  | .sweep now => cleanupBlobs st now
  | .cleanupAll => cleanupAllBlobs st

def runPerfOps (st : PerfState) (ops : List PerfOp) : PerfState :=
  ops.foldl applyPerfOp st

theorem revoke_findA_self (st : PerfState) (id : String) :
    findA (revokeBlobUrl st id).registry id = none := by
  unfold revokeBlobUrl
  cases hf : findA st.registry id with
  | none => exact hf
  | some e => exact findA_eraseA_self _ _

/-- **C5** Release/access semantics of the blob registry: for every id,
`register; release; access` returns `NotFound` (`null`); release is
idempotent; releasing an unregistered id is a no-op that frees nothing and
does not throw. -/
theorem register_release_access (st : PerfState) (id : String) (size now now2 : Nat) :
    (accessBlobUrl (revokeBlobUrl (createBlobUrl st id size now).2 id) id now2).1
      = none ∧
    revokeBlobUrl (revokeBlobUrl (createBlobUrl st id size now).2 id) id
      = revokeBlobUrl (createBlobUrl st id size now).2 id ∧
    (∀ s : PerfState, ∀ j : String, findA s.registry j = none → revokeBlobUrl s j = s) := by
  refine ⟨?_, ?_, ?_⟩
  · unfold accessBlobUrl
    rw [revoke_findA_self]
  · have h := revoke_findA_self (createBlobUrl st id size now).2 id
    generalize hgen : revokeBlobUrl (createBlobUrl st id size now).2 id = s1 at h ⊢
    unfold revokeBlobUrl
    rw [h]
  · intro s j hf
    unfold revokeBlobUrl
    rw [hf]

/-- Splits a (sorted) entry list into the evicted prefix and the kept
suffix of the eviction loop. -/
def evictSplit : List (String × BlobEntry) → Nat → Nat →
    List (String × BlobEntry) × List (String × BlobEntry)
  | [], _, _ => ([], [])
  | p :: rest, removed, target =>
    if target ≤ removed then ([], p :: rest)
    else
      (p :: (evictSplit rest (removed + p.2.size) target).1,
        (evictSplit rest (removed + p.2.size) target).2)

theorem evictSplit_append (S : List (String × BlobEntry)) (r t : Nat) :
    (evictSplit S r t).1 ++ (evictSplit S r t).2 = S := by
  induction S generalizing r with
  | nil => rfl
  | cons p rest ih =>
    unfold evictSplit
    by_cases h : t ≤ r
    · rw [if_pos h]; rfl
    · rw [if_neg h]
      show p :: ((evictSplit rest (r + p.2.size) t).1 ++ (evictSplit rest (r + p.2.size) t).2)
        = p :: rest
      rw [ih]

theorem evictSplit_ids (S : List (String × BlobEntry)) (r t : Nat) :
    ((evictSplit S r t).1).map (·.1) = evictIds S r t := by
  induction S generalizing r with
  | nil => rfl
  | cons p rest ih =>
    unfold evictSplit evictIds
    by_cases h : t ≤ r
    · rw [if_pos h, if_pos h]; rfl
    · rw [if_neg h, if_neg h]
      show p.1 :: ((evictSplit rest (r + p.2.size) t).1).map (·.1)
        = p.1 :: evictIds rest (r + p.2.size) t
      rw [ih]

theorem evictSplit_reached (S : List (String × BlobEntry)) (r t : Nat)
    (h : (evictSplit S r t).2 ≠ []) : t ≤ r + totalSize (evictSplit S r t).1 := by
  induction S generalizing r with
  | nil => exact absurd rfl h
  | cons p rest ih =>
    unfold evictSplit at h ⊢
    by_cases hr : t ≤ r
    · rw [if_pos hr]
      exact Nat.le_trans hr (Nat.le_add_right _ _)
    · rw [if_neg hr] at h ⊢
      have h2 : (evictSplit rest (r + p.2.size) t).2 ≠ [] := h
      have h3 := ih (r + p.2.size) h2
      show t ≤ r + totalSize (p :: (evictSplit rest (r + p.2.size) t).1)
      unfold totalSize at h3 ⊢
      simp only [List.map_cons, List.sum_cons]
      omega

theorem foldl_revoke_registry (ids : List String) (st : PerfState) :
    ((ids.foldl revokeBlobUrl st).registry) = ids.foldl eraseA st.registry := by
  induction ids generalizing st with
  | nil => rfl
  | cons i ids ih =>
    show ((ids.foldl revokeBlobUrl (revokeBlobUrl st i)).registry) = _
    rw [ih]
    have h : (revokeBlobUrl st i).registry = eraseA st.registry i := by
      unfold revokeBlobUrl
      cases hf : findA st.registry i with
      | none => exact (eraseA_of_findA_none hf).symm
      | some e => rfl
    rw [h]
    rfl

theorem eraseA_eq_filter {α : Type} (l : List (String × α)) (k : String) :
    eraseA l k = l.filter (fun p => decide (¬ p.1 = k)) := by
  induction l with
  | nil => rfl
  | cons p r ih =>
    by_cases hp : p.1 = k
    · rw [eraseA, if_pos hp, List.filter_cons, ih]
      simp [hp]
    · rw [eraseA, if_neg hp, List.filter_cons, ih]
      simp [hp]

theorem foldl_eraseA_eq_filter {α : Type} (ids : List String) (reg : List (String × α)) :
    ids.foldl eraseA reg = reg.filter (fun p => decide (¬ p.1 ∈ ids)) := by
  induction ids generalizing reg with
  | nil =>
    rw [List.foldl_nil]
    exact (List.filter_eq_self.mpr (fun a _ => by simp)).symm
  | cons i ids ih =>
    rw [List.foldl_cons, ih, eraseA_eq_filter, List.filter_filter]
    refine List.filter_congr ?_
    intro a _
    by_cases h1 : a.1 = i <;> by_cases h2 : a.1 ∈ ids <;>
      simp [h1, h2, List.mem_cons]

/-- Specification of the budget check: when triggered it leaves the
aggregate size at or below `budgetFloor` and evicts only
lowest-`lastAccessed` entries. -/
theorem checkMemoryUsage_spec (s : PerfState) (hnd : (keysA s.registry).Nodup)
    (htrig : maxBlobSize < totalSize s.registry) :
    totalSize (checkMemoryUsage s).registry ≤ budgetFloor ∧
    (∀ p, p ∈ s.registry → p.1 ∉ keysA (checkMemoryUsage s).registry →
      ∀ q, q ∈ (checkMemoryUsage s).registry → p.2.lastAccessed ≤ q.2.lastAccessed) := by
  have hcmu : checkMemoryUsage s
      = (evictIds (List.insertionSort entryLE s.registry) 0
          (totalSize s.registry - budgetFloor)).foldl revokeBlobUrl s := by
    unfold checkMemoryUsage
    rw [if_pos htrig]
  set S := List.insertionSort entryLE s.registry with hS
  set tgt := totalSize s.registry - budgetFloor with htgt
  set K := evictIds S 0 tgt with hK
  have hperm : S.Perm s.registry := List.perm_insertionSort entryLE s.registry
  have hsorted : List.Sorted entryLE S := List.sorted_insertionSort entryLE s.registry
  have hreg : (checkMemoryUsage s).registry
      = s.registry.filter (fun p => decide (¬ p.1 ∈ K)) := by
    rw [hcmu, foldl_revoke_registry, foldl_eraseA_eq_filter]
  have hKsplit : K = ((evictSplit S 0 tgt).1).map (·.1) := (evictSplit_ids S 0 tgt).symm
  set P := (evictSplit S 0 tgt).1 with hP
  set Kt := (evictSplit S 0 tgt).2 with hKt
  have hSPK : P ++ Kt = S := evictSplit_append S 0 tgt
  have hndS : (keysA S).Nodup := by
    have hp2 : (keysA S).Perm (keysA s.registry) :=
      List.Perm.map (fun p : String × BlobEntry => p.1) hperm
    exact hp2.nodup_iff.mpr hnd
  have hdisj : ∀ q, q ∈ Kt → ¬ q.1 ∈ K := by
    intro q hq hqK
    rw [hKsplit] at hqK
    rcases List.mem_map.mp hqK with ⟨p, hpP, hpq⟩
    have : (keysA (P ++ Kt)).Nodup := by rw [hSPK]; exact hndS
    rw [show keysA (P ++ Kt) = keysA P ++ keysA Kt by
      unfold keysA; rw [List.map_append]] at this
    have hnd2 := List.disjoint_of_nodup_append this
    exact hnd2 (List.mem_map.mpr ⟨p, hpP, hpq⟩) (List.mem_map.mpr ⟨q, hq, rfl⟩)
  have hfiltP : P.filter (fun p => decide (¬ p.1 ∈ K)) = [] := by
    rw [List.filter_eq_nil_iff]
    intro p hp
    simp only [decide_not, Bool.not_eq_true', Bool.not_eq_false, decide_eq_true_eq]
    rw [hKsplit]
    exact List.mem_map.mpr ⟨p, hp, rfl⟩
  have hfiltKt : Kt.filter (fun p => decide (¬ p.1 ∈ K)) = Kt := by
    rw [List.filter_eq_self]
    intro q hq
    exact decide_eq_true (hdisj q hq)
  have hpermF : ((checkMemoryUsage s).registry).Perm Kt := by
    rw [hreg]
    have h1 : (s.registry.filter (fun p => decide (¬ p.1 ∈ K))).Perm
        (S.filter (fun p => decide (¬ p.1 ∈ K))) := (hperm.filter _).symm
    have h2 : S.filter (fun p => decide (¬ p.1 ∈ K)) = Kt := by
      rw [← hSPK, List.filter_append, hfiltP, hfiltKt, List.nil_append]
    rw [h2] at h1
    exact h1
  have hsum : totalSize (checkMemoryUsage s).registry = totalSize Kt := by
    unfold totalSize
    exact (hpermF.map (·.2.size)).sum_eq
  constructor
  · rw [hsum]
    by_cases hKtnil : Kt = []
    · rw [hKtnil]
      exact Nat.zero_le _
    · have hreach := evictSplit_reached S 0 tgt hKtnil
      have hsumS : totalSize S = totalSize s.registry := by
        unfold totalSize
        exact (List.Perm.map (fun p : String × BlobEntry => p.2.size) hperm).sum_eq
      have hsplitsum : totalSize P + totalSize Kt = totalSize S := by
        unfold totalSize
        rw [← hSPK, List.map_append, List.sum_append]
      have hfloor : budgetFloor ≤ totalSize s.registry := by
        have hlt : budgetFloor < maxBlobSize := by decide
        omega
      have htgt2 : tgt = totalSize s.registry - budgetFloor := htgt
      have hPP : totalSize (evictSplit S 0 tgt).1 = totalSize P := rfl
      omega
  · intro p hpmem hpnot q hq
    have hpS : p ∈ S := hperm.mem_iff.mpr hpmem
    have hqKt : q ∈ Kt := hpermF.mem_iff.mp hq
    have hpP : p ∈ P := by
      rcases (List.mem_append.mp (by rw [hSPK]; exact hpS : p ∈ P ++ Kt)) with h | h
      · exact h
      · exfalso
        apply hpnot
        have hpF : p ∈ (checkMemoryUsage s).registry := by
          refine hpermF.mem_iff.mpr h
        exact List.mem_map.mpr ⟨p, hpF, rfl⟩
    have hpair : ∀ a, a ∈ P → ∀ b, b ∈ Kt → entryLE a b := by
      have hs2 : List.Pairwise entryLE (P ++ Kt) := by
        rw [hSPK]; exact hsorted
      have := (List.pairwise_append.mp hs2).2.2
      intro a ha b hb
      exact this a ha b hb
    exact hpair p hpP q hqKt

/-- **C3** Budget eviction: when the registry's aggregate size exceeds
`maxTotalBytes` after a `createBlobUrl` insertion, the budget check run by
that call evicts entries in lowest-`lastAccessedAt`-first order until the
aggregate is at or below 80 percent of the budget (`budgetFloor`, which is
exactly four fifths of `maxBlobSize`), and every evicted id subsequently
returns `null` from `accessBlobUrl`. -/
theorem createBlobUrl_budget_eviction (st : PerfState) (id : String)
    (size now now2 : Nat) (hnd : (keysA st.registry).Nodup)
    (htrig : maxBlobSize < totalSize (setA st.registry id ⟨st.nextUrl, now, now, size⟩)) :
    totalSize (createBlobUrl st id size now).2.registry ≤ budgetFloor ∧
    5 * budgetFloor = 4 * maxBlobSize ∧
    (∀ i : String, i ∉ keysA (createBlobUrl st id size now).2.registry →
      (accessBlobUrl (createBlobUrl st id size now).2 i now2).1 = none) ∧
    (∀ p, p ∈ setA st.registry id ⟨st.nextUrl, now, now, size⟩ →
      p.1 ∉ keysA (createBlobUrl st id size now).2.registry →
      ∀ q, q ∈ (createBlobUrl st id size now).2.registry →
        p.2.lastAccessed ≤ q.2.lastAccessed) := by
  have hnd1 : (keysA (PerfState.mk (setA st.registry id ⟨st.nextUrl, now, now, size⟩)
      st.revoked (st.nextUrl + 1)).registry).Nodup := nodup_keysA_setA id _ hnd
  have hspec := checkMemoryUsage_spec
    (PerfState.mk (setA st.registry id ⟨st.nextUrl, now, now, size⟩)
      st.revoked (st.nextUrl + 1)) hnd1 htrig
  have hc : (createBlobUrl st id size now).2
      = checkMemoryUsage (PerfState.mk (setA st.registry id ⟨st.nextUrl, now, now, size⟩)
          st.revoked (st.nextUrl + 1)) := rfl
  refine ⟨?_, by decide, ?_, ?_⟩
  · rw [hc]; exact hspec.1
  · intro i hi
    rw [hc] at hi ⊢
    unfold accessBlobUrl
    rw [findA_none_of_not_mem_keys hi]
  · intro p hp hpn q hq
    rw [hc] at hpn hq
    exact hspec.2 p hp hpn q hq

/-- A registry holding two 60MB blobs, with the next object URL being 2. -/
def perfDemo : PerfState :=
  ⟨[("a", ⟨0, 1, 1, 62914560⟩), ("b", ⟨1, 2, 2, 62914560⟩)], [], 2⟩

/-- Witness for C3: registering a third 60MB blob pushes the aggregate over
100MB; the oldest-accessed entries `a` and `b` are evicted and only `c`
remains. -/
theorem createBlobUrl_budget_eviction_witness :
    ((keysA perfDemo.registry).Nodup ∧
      maxBlobSize < totalSize (setA perfDemo.registry "c" ⟨perfDemo.nextUrl, 9, 9, 62914560⟩) ∧
      keysA (createBlobUrl perfDemo "c" 62914560 9).2.registry = ["c"]) ∧
    (totalSize (createBlobUrl perfDemo "c" 62914560 9).2.registry ≤ budgetFloor ∧
      5 * budgetFloor = 4 * maxBlobSize ∧
      (∀ i : String, i ∉ keysA (createBlobUrl perfDemo "c" 62914560 9).2.registry →
        (accessBlobUrl (createBlobUrl perfDemo "c" 62914560 9).2 i 10).1 = none) ∧
      (∀ p, p ∈ setA perfDemo.registry "c" ⟨perfDemo.nextUrl, 9, 9, 62914560⟩ →
        p.1 ∉ keysA (createBlobUrl perfDemo "c" 62914560 9).2.registry →
        ∀ q, q ∈ (createBlobUrl perfDemo "c" 62914560 9).2.registry →
          p.2.lastAccessed ≤ q.2.lastAccessed)) :=
  ⟨⟨by decide, by decide, by decide⟩,
    createBlobUrl_budget_eviction perfDemo "c" 62914560 9 10 (by decide) (by decide)⟩

/-- Witness for C5 at a concrete state. -/
theorem register_release_access_witness :
    (accessBlobUrl (revokeBlobUrl (createBlobUrl ⟨[], [], 0⟩ "clip" 1000 5).2 "clip")
        "clip" 9).1 = none ∧
    revokeBlobUrl (revokeBlobUrl (createBlobUrl ⟨[], [], 0⟩ "clip" 1000 5).2 "clip") "clip"
      = revokeBlobUrl (createBlobUrl ⟨[], [], 0⟩ "clip" 1000 5).2 "clip" ∧
    (∀ s : PerfState, ∀ j : String, findA s.registry j = none → revokeBlobUrl s j = s) :=
  register_release_access ⟨[], [], 0⟩ "clip" 1000 5 9

/-! ### Object-URL accounting for the registry

`registryUrls` lists the object URLs currently owned by the registry;
`PerfWF` is the well-formedness invariant of reachable registry states
(urls are allocated below `nextUrl`, pairwise distinct, keys are distinct,
and a revoked url is never still in the registry). -/

def registryUrls (reg : List (String × BlobEntry)) : List Nat := reg.map (·.2.url)

theorem findA_some_mem {α : Type} {l : List (String × α)} {k : String} {v : α}
    (h : findA l k = some v) : (k, v) ∈ l := by
  induction l with
  | nil => simp [findA] at h
  | cons p r ih =>
    by_cases hp : p.1 = k
    · rw [findA, if_pos hp] at h
      have hv : p.2 = v := Option.some.inj h
      have : p = (k, v) := by
        cases p
        simp at hp hv
        rw [hp, hv]
      rw [← this]
      exact List.mem_cons_self _ _
    · rw [findA, if_neg hp] at h
      exact List.mem_cons_of_mem _ (ih h)

theorem mem_setA {α : Type} {l : List (String × α)} {k : String} {v : α}
    {p : String × α} (h : p ∈ setA l k v) : p = (k, v) ∨ p ∈ l := by
  induction l with
  | nil =>
    rw [setA] at h
    rcases List.mem_singleton.mp h with h
    exact Or.inl h
  | cons q r ih =>
    by_cases hq : q.1 = k
    · rw [setA, if_pos hq] at h
      rcases List.mem_cons.mp h with h | h
      · exact Or.inl h
      · exact Or.inr (List.mem_cons_of_mem _ h)
    · rw [setA, if_neg hq] at h
      rcases List.mem_cons.mp h with h | h
      · exact Or.inr (h ▸ List.mem_cons_self _ _)
      · rcases ih h with h2 | h2
        · exact Or.inl h2
        · exact Or.inr (List.mem_cons_of_mem _ h2)

theorem mem_setA_nodup {α : Type} {l : List (String × α)} (hnd : (keysA l).Nodup)
    {k : String} {v : α} {p : String × α} (h : p ∈ setA l k v) :
    p = (k, v) ∨ (p ∈ l ∧ ¬ p.1 = k) := by
  induction l with
  | nil =>
    rw [setA] at h
    exact Or.inl (List.mem_singleton.mp h)
  | cons q r ih =>
    simp only [keysA, List.map_cons, List.nodup_cons] at hnd
    by_cases hq : q.1 = k
    · rw [setA, if_pos hq] at h
      rcases List.mem_cons.mp h with h | h
      · exact Or.inl h
      · refine Or.inr ⟨List.mem_cons_of_mem _ h, ?_⟩
        intro hc
        apply hnd.1
        rw [hq, ← hc]
        exact List.mem_map.mpr ⟨p, h, rfl⟩
    · rw [setA, if_neg hq] at h
      rcases List.mem_cons.mp h with h | h
      · refine Or.inr ⟨h ▸ List.mem_cons_self _ _, ?_⟩
        rw [h]; exact hq
      · rcases ih hnd.2 h with h2 | h2
        · exact Or.inl h2
        · exact Or.inr ⟨List.mem_cons_of_mem _ h2.1, h2.2⟩

theorem eraseA_sublist {α : Type} (l : List (String × α)) (k : String) :
    (eraseA l k).Sublist l := by
  rw [eraseA_eq_filter]
  exact List.filter_sublist _

theorem mem_eraseA {α : Type} {l : List (String × α)} {k : String} {p : String × α}
    (h : p ∈ eraseA l k) : p ∈ l ∧ ¬ p.1 = k := by
  rw [eraseA_eq_filter] at h
  have h2 := List.mem_filter.mp h
  refine ⟨h2.1, ?_⟩
  have := h2.2
  simpa using this

theorem urls_setA_sub {reg : List (String × BlobEntry)} {k : String} {v : BlobEntry}
    {u : Nat} (h : u ∈ registryUrls (setA reg k v)) :
    u = v.url ∨ u ∈ registryUrls reg := by
  rcases List.mem_map.mp h with ⟨p, hp, hpu⟩
  rcases mem_setA hp with h2 | h2
  · left; rw [← hpu, h2]
  · right; exact List.mem_map.mpr ⟨p, h2, hpu⟩

theorem urls_setA_same {reg : List (String × BlobEntry)} {id : String} {e : BlobEntry}
    (h : findA reg id = some e) (e2 : BlobEntry) (hurl : e2.url = e.url) :
    registryUrls (setA reg id e2) = registryUrls reg := by
  induction reg with
  | nil => simp [findA] at h
  | cons p r ih =>
    by_cases hp : p.1 = id
    · rw [findA, if_pos hp] at h
      have he : p.2 = e := Option.some.inj h
      rw [setA, if_pos hp]
      show e2.url :: registryUrls r = p.2.url :: registryUrls r
      rw [hurl, he]
    · rw [findA, if_neg hp] at h
      rw [setA, if_neg hp]
      show p.2.url :: registryUrls (setA r id e2) = p.2.url :: registryUrls r
      rw [ih h]

theorem nodup_urls_setA_fresh {reg : List (String × BlobEntry)} {k : String}
    {v : BlobEntry} (hnd : (registryUrls reg).Nodup)
    (hfresh : v.url ∉ registryUrls reg) : (registryUrls (setA reg k v)).Nodup := by
  induction reg with
  | nil => simp [setA, registryUrls]
  | cons p r ih =>
    simp only [registryUrls, List.map_cons, List.nodup_cons] at hnd hfresh
    have hf1 : v.url ≠ p.2.url ∧ v.url ∉ registryUrls r := by
      constructor
      · intro hc; exact hfresh (by rw [hc]; exact List.mem_cons_self _ _)
      · intro hc; exact hfresh (List.mem_cons_of_mem _ hc)
    by_cases hp : p.1 = k
    · rw [setA, if_pos hp]
      show (v.url :: registryUrls r).Nodup
      exact List.nodup_cons.mpr ⟨hf1.2, hnd.2⟩
    · rw [setA, if_neg hp]
      show (p.2.url :: registryUrls (setA r k v)).Nodup
      refine List.nodup_cons.mpr ⟨?_, ih hnd.2 hf1.2⟩
      intro hc
      rcases urls_setA_sub hc with h2 | h2
      · exact hf1.1 h2.symm
      · exact hnd.1 h2

def PerfWF (st : PerfState) : Prop :=
  (∀ u ∈ registryUrls st.registry, u < st.nextUrl) ∧
  (∀ u ∈ st.revoked, u < st.nextUrl) ∧
  (registryUrls st.registry).Nodup ∧
  (keysA st.registry).Nodup ∧
  (∀ u ∈ st.revoked, u ∉ registryUrls st.registry)

theorem wf_revoke {st : PerfState} (h : PerfWF st) (id : String) :
    PerfWF (revokeBlobUrl st id) := by
  obtain ⟨h1, h2, h3, h4, h5⟩ := h
  unfold revokeBlobUrl
  cases hf : findA st.registry id with
  | none => exact ⟨h1, h2, h3, h4, h5⟩
  | some e =>
    have hmem : (id, e) ∈ st.registry := findA_some_mem hf
    have heurl : e.url ∈ registryUrls st.registry := List.mem_map.mpr ⟨(id, e), hmem, rfl⟩
    have hsubU : ∀ u ∈ registryUrls (eraseA st.registry id), u ∈ registryUrls st.registry :=
      fun u hu => ((eraseA_sublist st.registry id).map (·.2.url)).subset hu
    refine ⟨?_, ?_, ?_, ?_, ?_⟩
    · intro u hu; exact h1 u (hsubU u hu)
    · intro u hu
      rcases List.mem_append.mp hu with hu | hu
      · exact h2 u hu
      · rw [List.mem_singleton.mp hu]
        exact h1 _ heurl
    · show (registryUrls (eraseA st.registry id)).Nodup
      have hsub := List.Sublist.map (fun p : String × BlobEntry => p.2.url)
        (eraseA_sublist st.registry id)
      exact List.Nodup.sublist hsub h3
    · show (keysA (eraseA st.registry id)).Nodup
      have hsub := List.Sublist.map (fun p : String × BlobEntry => p.1)
        (eraseA_sublist st.registry id)
      exact List.Nodup.sublist hsub h4
    · intro u hu hc
      rcases List.mem_append.mp hu with hu | hu
      · exact h5 u hu (hsubU u hc)
      · rw [List.mem_singleton.mp hu] at hc
        rcases List.mem_map.mp hc with ⟨p, hp, hpu⟩
        have hpr := mem_eraseA hp
        have hpe : p = (id, e) :=
          List.inj_on_of_nodup_map h3 hpr.1 hmem (by rw [hpu])
        apply hpr.2
        rw [hpe]

theorem wf_foldl_revoke {st : PerfState} (h : PerfWF st) (ids : List String) :
    PerfWF (ids.foldl revokeBlobUrl st) := by
  induction ids generalizing st with
  | nil => exact h
  | cons i ids ih => exact ih (wf_revoke h i)

theorem wf_checkMemory {st : PerfState} (h : PerfWF st) : PerfWF (checkMemoryUsage st) := by
  unfold checkMemoryUsage
  by_cases hc : maxBlobSize < totalSize st.registry
  · rw [if_pos hc]; exact wf_foldl_revoke h _
  · rw [if_neg hc]; exact h

theorem wf_access {st : PerfState} (h : PerfWF st) (id : String) (now : Nat) :
    PerfWF (accessBlobUrl st id now).2 := by
  obtain ⟨h1, h2, h3, h4, h5⟩ := h
  unfold accessBlobUrl
  cases hf : findA st.registry id with
  | none => exact ⟨h1, h2, h3, h4, h5⟩
  | some e =>
    have hurls : registryUrls (setA st.registry id { e with lastAccessed := now })
        = registryUrls st.registry := urls_setA_same hf _ rfl
    refine ⟨?_, h2, ?_, ?_, ?_⟩
    · intro u hu
      apply h1 u
      rw [← hurls]
      exact hu
    · show (registryUrls (setA st.registry id { e with lastAccessed := now })).Nodup
      rw [hurls]; exact h3
    · exact nodup_keysA_setA _ _ h4
    · intro u hu
      show u ∉ registryUrls (setA st.registry id { e with lastAccessed := now })
      rw [hurls]; exact h5 u hu

theorem wf_create {st : PerfState} (h : PerfWF st) (id : String) (size now : Nat) :
    PerfWF (createBlobUrl st id size now).2 := by
  obtain ⟨h1, h2, h3, h4, h5⟩ := h
  refine wf_checkMemory ⟨?_, ?_, ?_, ?_, ?_⟩
  · intro u hu
    rcases urls_setA_sub hu with h6 | h6
    · rw [h6]; exact Nat.lt_succ_self _
    · exact Nat.lt_succ_of_lt (h1 u h6)
  · intro u hu; exact Nat.lt_succ_of_lt (h2 u hu)
  · refine nodup_urls_setA_fresh h3 ?_
    intro hc
    exact Nat.lt_irrefl _ (h1 _ hc)
  · exact nodup_keysA_setA _ _ h4
  · intro u hu hc
    rcases urls_setA_sub hc with h6 | h6
    · exact Nat.lt_irrefl _ (h6 ▸ h2 u hu)
    · exact h5 u hu h6

theorem wf_sweep {st : PerfState} (h : PerfWF st) (now : Nat) :
    PerfWF (cleanupBlobs st now) := by
  unfold cleanupBlobs
  generalize st.registry = l
  induction l generalizing st with
  | nil => exact h
  | cons p r ih =>
    rw [List.foldl_cons]
    by_cases hc : maxBlobAge < now - p.2.createdAt ∨ maxBlobAge / 2 < now - p.2.lastAccessed
    · rw [if_pos hc]; exact ih (wf_revoke h p.1)
    · rw [if_neg hc]; exact ih h

theorem wf_step {st : PerfState} (h : PerfWF st) (op : PerfOp) :
    PerfWF (applyPerfOp st op) := by
  cases op with
  | create id size now => exact wf_create h id size now
  | access id now => exact wf_access h id now
  | revoke id => exact wf_revoke h id
  | sweep now => exact wf_sweep h now
  | cleanupAll => exact wf_foldl_revoke h _

/-- `UrlLost u st`: the object URL `u` was allocated in the past but is no
longer in the registry and was never revoked — it has leaked. -/
def UrlLost (u : Nat) (st : PerfState) : Prop :=
  u < st.nextUrl ∧ u ∉ registryUrls st.registry ∧ u ∉ st.revoked

theorem urlLost_revoke {u : Nat} {st : PerfState} (h : UrlLost u st) (id : String) :
    UrlLost u (revokeBlobUrl st id) := by
  obtain ⟨h1, h2, h3⟩ := h
  unfold revokeBlobUrl
  cases hf : findA st.registry id with
  | none => exact ⟨h1, h2, h3⟩
  | some e =>
    refine ⟨h1, ?_, ?_⟩
    · intro hc
      exact h2 (((eraseA_sublist st.registry id).map (·.2.url)).subset hc)
    · intro hc
      rcases List.mem_append.mp hc with hc | hc
      · exact h3 hc
      · apply h2
        rw [List.mem_singleton.mp hc]
        exact List.mem_map.mpr ⟨(id, e), findA_some_mem hf, rfl⟩

theorem urlLost_foldl_revoke {u : Nat} {st : PerfState} (h : UrlLost u st)
    (ids : List String) : UrlLost u (ids.foldl revokeBlobUrl st) := by
  induction ids generalizing st with
  | nil => exact h
  | cons i ids ih => exact ih (urlLost_revoke h i)

theorem urlLost_checkMemory {u : Nat} {st : PerfState} (h : UrlLost u st) :
    UrlLost u (checkMemoryUsage st) := by
  unfold checkMemoryUsage
  by_cases hc : maxBlobSize < totalSize st.registry
  · rw [if_pos hc]; exact urlLost_foldl_revoke h _
  · rw [if_neg hc]; exact h

theorem urlLost_access {u : Nat} {st : PerfState} (h : UrlLost u st) (id : String)
    (now : Nat) : UrlLost u (accessBlobUrl st id now).2 := by
  obtain ⟨h1, h2, h3⟩ := h
  unfold accessBlobUrl
  cases hf : findA st.registry id with
  | none => exact ⟨h1, h2, h3⟩
  | some e =>
    refine ⟨h1, ?_, h3⟩
    show u ∉ registryUrls (setA st.registry id { e with lastAccessed := now })
    rw [urls_setA_same hf { e with lastAccessed := now } rfl]
    exact h2

theorem urlLost_create {u : Nat} {st : PerfState} (h : UrlLost u st) (id : String)
    (size now : Nat) : UrlLost u (createBlobUrl st id size now).2 := by
  obtain ⟨h1, h2, h3⟩ := h
  refine urlLost_checkMemory ⟨Nat.lt_succ_of_lt h1, ?_, h3⟩
  intro hc
  rcases urls_setA_sub hc with h4 | h4
  · exact Nat.lt_irrefl _ (h4 ▸ h1)
  · exact h2 h4

theorem urlLost_sweep {u : Nat} {st : PerfState} (h : UrlLost u st) (now : Nat) :
    UrlLost u (cleanupBlobs st now) := by
  unfold cleanupBlobs
  generalize st.registry = l
  induction l generalizing st with
  | nil => exact h
  | cons p r ih =>
    rw [List.foldl_cons]
    by_cases hc : maxBlobAge < now - p.2.createdAt ∨ maxBlobAge / 2 < now - p.2.lastAccessed
    · rw [if_pos hc]; exact ih (urlLost_revoke h p.1)
    · rw [if_neg hc]; exact ih h

theorem urlLost_step {u : Nat} {st : PerfState} (h : UrlLost u st) (op : PerfOp) :
    UrlLost u (applyPerfOp st op) := by
  cases op with
  | create id size now => exact urlLost_create h id size now
  | access id now => exact urlLost_access h id now
  | revoke id => exact urlLost_revoke h id
  | sweep now => exact urlLost_sweep h now
  | cleanupAll => exact urlLost_foldl_revoke h _

theorem urlLost_run {u : Nat} {st : PerfState} (h : UrlLost u st) (ops : List PerfOp) :
    UrlLost u (runPerfOps st ops) := by
  induction ops generalizing st with
  | nil => exact h
  | cons op ops ih => exact ih (urlLost_step h op)

theorem findA_filter_keypred {α : Type} (g : String → Bool) {l : List (String × α)}
    {k : String} {v : α} (h : findA (l.filter (fun p => g p.1)) k = some v) :
    findA l k = some v := by
  induction l with
  | nil => exact h
  | cons p r ih =>
    rw [List.filter_cons] at h
    by_cases hg : g p.1 = true
    · rw [if_pos hg] at h
      by_cases hp : p.1 = k
      · rw [findA, if_pos hp] at h ⊢
        exact h
      · rw [findA, if_neg hp] at h ⊢
        exact ih h
    · rw [if_neg hg] at h
      by_cases hp : p.1 = k
      · exfalso
        have hmem := findA_some_mem h
        have := (List.mem_filter.mp hmem).2
        rw [← hp] at this
        exact hg this
      · rw [findA, if_neg hp]
        exact ih h

theorem findA_checkMemory_some {s : PerfState} {k : String} {v : BlobEntry}
    (h : findA (checkMemoryUsage s).registry k = some v) : findA s.registry k = some v := by
  unfold checkMemoryUsage at h
  by_cases hc : maxBlobSize < totalSize s.registry
  · rw [if_pos hc, foldl_revoke_registry, foldl_eraseA_eq_filter] at h
    exact findA_filter_keypred (fun j => decide (¬ j ∈ evictIds
      (List.insertionSort entryLE s.registry) 0 (totalSize s.registry - budgetFloor))) h
  · rw [if_neg hc] at h
    exact h

theorem foldl_revoke_nextUrl (ids : List String) (s : PerfState) :
    (ids.foldl revokeBlobUrl s).nextUrl = s.nextUrl := by
  induction ids generalizing s with
  | nil => rfl
  | cons i ids ih =>
    rw [List.foldl_cons, ih]
    unfold revokeBlobUrl
    cases findA s.registry i <;> rfl

theorem checkMemory_nextUrl (s : PerfState) :
    (checkMemoryUsage s).nextUrl = s.nextUrl := by
  unfold checkMemoryUsage
  by_cases hc : maxBlobSize < totalSize s.registry
  · rw [if_pos hc, foldl_revoke_nextUrl]
  · rw [if_neg hc]

/-- **C10** Duplicate-id registration leaks the old locator: when
`createBlobUrl` is called with an id already present in the registry
(here: present as `e1` after a first `createBlobUrl`), the second call
overwrites the registry record with a fresh URL without revoking `e1`'s
URL, and no sequence of further registry operations can ever revoke the
old URL (nor does it ever re-enter the registry) — only the most recently
registered URL for the id remains reachable through the registry. -/
theorem createBlobUrl_duplicate_overwrite_leak (st : PerfState) (id : String)
    (sz1 t1 sz2 t2 : Nat) (hwf : PerfWF st) (e1 : BlobEntry)
    (hid : findA (createBlobUrl st id sz1 t1).2.registry id = some e1) :
    e1.url = st.nextUrl ∧
    (∀ e2 : BlobEntry,
      findA (createBlobUrl (createBlobUrl st id sz1 t1).2 id sz2 t2).2.registry id
        = some e2 → e2.url = st.nextUrl + 1) ∧
    (∀ ops : List PerfOp,
      st.nextUrl ∉
        (runPerfOps (createBlobUrl (createBlobUrl st id sz1 t1).2 id sz2 t2).2 ops).revoked ∧
      st.nextUrl ∉ registryUrls
        (runPerfOps (createBlobUrl (createBlobUrl st id sz1 t1).2 id sz2 t2).2 ops).registry) := by
  have hwf1 : PerfWF (createBlobUrl st id sz1 t1).2 := wf_create hwf id sz1 t1
  have hid2 : findA (checkMemoryUsage (PerfState.mk
      (setA st.registry id ⟨st.nextUrl, t1, t1, sz1⟩) st.revoked (st.nextUrl + 1))).registry
      id = some e1 := hid
  have hpre := findA_checkMemory_some hid2
  have hpre2 : findA (setA st.registry id ⟨st.nextUrl, t1, t1, sz1⟩) id = some e1 := hpre
  have he1 : e1 = ⟨st.nextUrl, t1, t1, sz1⟩ :=
    (Option.some.inj ((findA_setA_self st.registry id
      ⟨st.nextUrl, t1, t1, sz1⟩).symm.trans hpre2)).symm
  have hn1 : (createBlobUrl st id sz1 t1).2.nextUrl = st.nextUrl + 1 := by
    show (checkMemoryUsage (PerfState.mk (setA st.registry id ⟨st.nextUrl, t1, t1, sz1⟩)
      st.revoked (st.nextUrl + 1))).nextUrl = st.nextUrl + 1
    rw [checkMemory_nextUrl]
  have hmem1 : (id, e1) ∈ (createBlobUrl st id sz1 t1).2.registry := findA_some_mem hid
  have hu1mem : st.nextUrl ∈ registryUrls (createBlobUrl st id sz1 t1).2.registry := by
    refine List.mem_map.mpr ⟨(id, e1), hmem1, ?_⟩
    rw [he1]
  refine ⟨by rw [he1], ?_, ?_⟩
  · intro e2 h2
    have h2b : findA (checkMemoryUsage (PerfState.mk
        (setA (createBlobUrl st id sz1 t1).2.registry id
          ⟨(createBlobUrl st id sz1 t1).2.nextUrl, t2, t2, sz2⟩)
        (createBlobUrl st id sz1 t1).2.revoked
        ((createBlobUrl st id sz1 t1).2.nextUrl + 1))).registry id = some e2 := h2
    have hpre3 := findA_checkMemory_some h2b
    have hpre4 : findA (setA (createBlobUrl st id sz1 t1).2.registry id
        ⟨(createBlobUrl st id sz1 t1).2.nextUrl, t2, t2, sz2⟩) id = some e2 := hpre3
    have he2 : e2 = ⟨(createBlobUrl st id sz1 t1).2.nextUrl, t2, t2, sz2⟩ :=
      (Option.some.inj ((findA_setA_self _ id _).symm.trans hpre4)).symm
    rw [he2]
    show (createBlobUrl st id sz1 t1).2.nextUrl = st.nextUrl + 1
    exact hn1
  · have hlost : UrlLost st.nextUrl (createBlobUrl (createBlobUrl st id sz1 t1).2 id sz2 t2).2 := by
      show UrlLost st.nextUrl (checkMemoryUsage (PerfState.mk
        (setA (createBlobUrl st id sz1 t1).2.registry id
          ⟨(createBlobUrl st id sz1 t1).2.nextUrl, t2, t2, sz2⟩)
        (createBlobUrl st id sz1 t1).2.revoked
        ((createBlobUrl st id sz1 t1).2.nextUrl + 1)))
      apply urlLost_checkMemory
      refine ⟨?_, ?_, ?_⟩
      · show st.nextUrl < (createBlobUrl st id sz1 t1).2.nextUrl + 1
        rw [hn1]
        omega
      · show st.nextUrl ∉ registryUrls (setA (createBlobUrl st id sz1 t1).2.registry id
          ⟨(createBlobUrl st id sz1 t1).2.nextUrl, t2, t2, sz2⟩)
        intro hc
        rcases List.mem_map.mp hc with ⟨p, hp, hpu⟩
        rcases mem_setA_nodup hwf1.2.2.2.1 hp with h3 | h3
        · rw [h3] at hpu
          have : (createBlobUrl st id sz1 t1).2.nextUrl = st.nextUrl := hpu
          rw [hn1] at this
          omega
        · have hpe : p = (id, e1) := by
            refine List.inj_on_of_nodup_map hwf1.2.2.1 h3.1 hmem1 ?_
            show p.2.url = e1.url
            rw [hpu, he1]
          exact h3.2 (by rw [hpe])
      · show st.nextUrl ∉ (createBlobUrl st id sz1 t1).2.revoked
        exact fun hc => hwf1.2.2.2.2 st.nextUrl hc hu1mem
    intro ops
    have hrun := urlLost_run hlost ops
    exact ⟨hrun.2.2, hrun.2.1⟩

/-- Witness for C10: a well-formed one-entry registry where `"x"` is
registered twice in a row. -/
theorem createBlobUrl_duplicate_overwrite_leak_witness :
    ((findA (createBlobUrl (PerfState.mk [] [] 0) "x" 5 1).2.registry "x"
        = some ⟨0, 1, 1, 5⟩) ∧ PerfWF (PerfState.mk [] [] 0)) ∧
    ((⟨0, 1, 1, 5⟩ : BlobEntry).url = (PerfState.mk [] [] 0).nextUrl ∧
    (∀ e2 : BlobEntry,
      findA (createBlobUrl (createBlobUrl (PerfState.mk [] [] 0) "x" 5 1).2 "x" 7 2).2.registry
        "x" = some e2 → e2.url = (PerfState.mk [] [] 0).nextUrl + 1) ∧
    (∀ ops : List PerfOp,
      (PerfState.mk [] [] 0).nextUrl ∉
        (runPerfOps (createBlobUrl (createBlobUrl (PerfState.mk [] [] 0) "x" 5 1).2
          "x" 7 2).2 ops).revoked ∧
      (PerfState.mk [] [] 0).nextUrl ∉ registryUrls
        (runPerfOps (createBlobUrl (createBlobUrl (PerfState.mk [] [] 0) "x" 5 1).2
          "x" 7 2).2 ops).registry)) :=
  ⟨⟨by decide, by
      refine ⟨?_, ?_, ?_, ?_, ?_⟩ <;> simp [registryUrls, keysA, PerfState.mk]⟩,
    createBlobUrl_duplicate_overwrite_leak (PerfState.mk [] [] 0) "x" 5 1 7 2
      (by refine ⟨?_, ?_, ?_, ?_, ?_⟩ <;> simp [registryUrls, keysA, PerfState.mk])
      ⟨0, 1, 1, 5⟩ (by decide)⟩

/-! ## Concurrency limiter (`PerformanceManager.executeWithConcurrencyLimit`)

The limiter is embedded at microtask granularity, which is where its
behaviour is decided.  In `executeWithConcurrencyLimit`, the call
`await this.waitForSlot(priority)` runs `waitForSlot` synchronously up to
its first suspension: one iteration of the `while` loop performs at most
one `cancelLowPriorityTasks` and then either suspends on
`Promise.race(activeTasks)` or returns.  Even when it returns
immediately, the `await` defers the continuation — task creation and
`activeTasks.set` — to a separate microtask (`MTask.ins`).  When a task's
promise settles, the promise reactions run in attachment order: first the
`finally` cleanup of its own `executeWithConcurrencyLimit` frame
(`MTask.del`), then the `Promise.race` wake-ups of waiters in the order
their races were created (`MTask.wake`); a race whose promise already
settled does not fire again (the `resolved` flag).  External
nondeterminism (when each task body finishes) is the event schedule. -/

inductive TaskType where
  | tts
  | clone
  | analyze
  | download
deriving DecidableEq, Repr

inductive TaskPrio where
  | high
  | normal
  | low
deriving DecidableEq, Repr

/-- The preemptible kinds checked by `cancelLowPriorityTasks`. -/
def preemptibleKind : TaskType → Bool
  | .analyze => true
  | .download => true
  | _ => false

/-- An entry of the `activeTasks` map (insertion ordered). -/
structure ATask where
  tid : Nat
  ttype : TaskType
deriving DecidableEq, Repr

/-- Program counter of one `executeWithConcurrencyLimit` invocation. -/
inductive SubPC where
  | entered
  | waiting (snapshot : List Nat) (resolved : Bool)
  | pendingInsert
  | running (tid : Nat)
deriving DecidableEq, Repr

structure Sub where
  prio : TaskPrio
  ttype : TaskType
  pc : SubPC
deriving DecidableEq, Repr

inductive MTask where
  | del (tid : Nat)
  | wake (sid : Nat)
  | ins (sid : Nat)
deriving DecidableEq, Repr

structure LState where
  active : List ATask
  subs : List Sub
  micro : List MTask
  waiters : List Nat
  nextTid : Nat
  cancelled : List Nat
  insertOrder : List Nat
  completed : List Nat
deriving DecidableEq, Repr

def maxConcurrentTasks : Nat := 3

/-- `cancelLowPriorityTasks()`: abort and delete the first running task of
a preemptible kind, then `break`. -/
def cancelLowPriorityTasks (st : LState) : LState :=
  match st.active.find? (fun a => preemptibleKind a.ttype) with
  | some a =>
    { st with
        active := st.active.eraseP (fun b => preemptibleKind b.ttype),
        cancelled := st.cancelled ++ [a.tid] }
  | none => st

/-- One resumption of the `while` loop of `waitForSlot` for submission
`sid`: check the ceiling, preempt once when `high`, then either queue the
deferred insertion (`waitForSlot` returned) or suspend on a race over the
current task promises. -/
def stepLoop (st : LState) (sid : Nat) : LState :=
  match st.subs.get? sid with
  | none => st
  | some sub =>
    if st.active.length < maxConcurrentTasks then
      { st with
          micro := st.micro ++ [.ins sid],
          subs := st.subs.set sid { sub with pc := .pendingInsert } }
    else
      let st1 := if sub.prio = .high then cancelLowPriorityTasks st else st
      if st1.active.length < maxConcurrentTasks then
        { st1 with
            micro := st1.micro ++ [.ins sid],
            subs := st1.subs.set sid { sub with pc := .pendingInsert } }
      else
        { st1 with
            subs := st1.subs.set sid
              { sub with pc := .waiting (st1.active.map (·.tid)) false },
            waiters := st1.waiters ++ [sid] }

/-- The waiters woken by completion of `tid`: those whose race snapshot
contains `tid` and whose race has not already settled, in race-creation
order. -/
def wakeList (st : LState) (tid : Nat) : List Nat :=
  st.waiters.filter (fun sid =>
    match st.subs.get? sid with
    | some s =>
      match s.pc with
      | .waiting snap false => decide (tid ∈ snap)
      | _ => false
    | none => false)

def markResolved (subs : List Sub) (sids : List Nat) : List Sub :=
  sids.foldl
    (fun l sid =>
      match l.get? sid with
      | some s =>
        match s.pc with
        | .waiting snap _ => l.set sid { s with pc := .waiting snap true }
        | _ => l
      | none => l)
    subs

def handleComplete (st : LState) (tid : Nat) : LState :=
  { st with
      micro := st.micro ++ [.del tid] ++ (wakeList st tid).map .wake,
      subs := markResolved st.subs (wakeList st tid),
      completed := st.completed ++ [tid] }

/-- Run the microtask at the front of the queue. -/
def runMicro (st : LState) : LState :=
  match st.micro with
  | [] => st
  | m :: rest =>
    match m with
    | .del tid =>
      { st with micro := rest, active := st.active.filter (fun a => a.tid != tid) }
    | .wake sid => stepLoop { st with micro := rest, waiters := st.waiters.erase sid } sid
    | .ins sid =>
      match st.subs.get? sid with
      | none => { st with micro := rest }
      | some sub =>
        { st with
            micro := rest,
            active := st.active ++ [⟨st.nextTid, sub.ttype⟩],
            nextTid := st.nextTid + 1,
            subs := st.subs.set sid { sub with pc := .running st.nextTid },
            insertOrder := st.insertOrder ++ [sid] }

inductive LEvent where
  | submit (prio : TaskPrio) (ttype : TaskType)
  | complete (tid : Nat)
  | micro
deriving DecidableEq, Repr

def lstep (st : LState) : LEvent → LState
  | .submit prio ttype =>
    stepLoop { st with subs := st.subs ++ [⟨prio, ttype, .entered⟩] } st.subs.length
  | .complete tid =>
    if tid < st.nextTid ∧ ¬ tid ∈ st.completed then handleComplete st tid else st
  | .micro => runMicro st

def initL : LState := ⟨[], [], [], [], 0, [], [], []⟩

def runL (es : List LEvent) : LState := es.foldl lstep initL

/-- Four tasks submitted in the same synchronous turn: each `waitForSlot`
check sees an empty running set because the insertions are still queued
behind the `await`. -/
def c2trace : List LEvent :=
  [.submit .normal .tts, .submit .normal .tts, .submit .normal .tts, .submit .normal .tts,
   .micro, .micro, .micro, .micro]

/-- **C2** (refuting evaluation) The concurrency ceiling is violated: four
tasks submitted in one synchronous turn are all admitted (each
`waitForSlot` checks `activeTasks.size` before any deferred insertion has
run), so after the microtask queue drains, the running set holds four
tasks — exceeding `maxConcurrentTasks = 3`. -/
theorem concurrency_ceiling_violated :
    (runL c2trace).active.length = 4 ∧
    maxConcurrentTasks < (runL c2trace).active.length := by
  decide

/-- Three preemptible (`analyze`) tasks admitted and running, filling all
three slots. -/
def preemptBase : List LEvent :=
  [.submit .normal .analyze, .submit .normal .analyze, .submit .normal .analyze,
   .micro, .micro, .micro]

/-- **C8** Preemption cancels exactly one victim: `cancelLowPriorityTasks`
removes at most one running task per call and only ever a task of a
preemptible kind (`analyze`/`download`); and in the ceiling-3 scenario
where three preemptible tasks are running, a `high`-priority submission
cancels exactly one of them (the first) before being admitted. -/
theorem preemption_single_victim :
    (∀ st : LState,
      st.active.length ≤ (cancelLowPriorityTasks st).active.length + 1 ∧
      (cancelLowPriorityTasks st).active.length ≤ st.active.length) ∧
    (∀ st : LState, ∀ a : ATask, a ∈ st.active →
      ¬ a ∈ (cancelLowPriorityTasks st).active → preemptibleKind a.ttype = true) ∧
    ((runL (preemptBase ++ [.submit .high .clone])).cancelled = [0] ∧
      (runL (preemptBase ++ [.submit .high .clone])).active.length = 2 ∧
      (runL (preemptBase ++ [.submit .high .clone, .micro])).cancelled = [0] ∧
      (runL (preemptBase ++ [.submit .high .clone, .micro])).active.length = 3 ∧
      (runL (preemptBase ++ [.submit .high .clone, .micro])).subs.get? 3
        = some ⟨.high, .clone, .running 3⟩) := by
  refine ⟨?_, ?_, by decide⟩
  · intro st
    unfold cancelLowPriorityTasks
    cases hf : st.active.find? (fun a => preemptibleKind a.ttype) with
    | none => exact ⟨Nat.le_succ _, Nat.le_refl _⟩
    | some a =>
      have hmem := List.mem_of_find?_eq_some hf
      have hpa := List.find?_some hf
      constructor
      · show st.active.length ≤ (st.active.eraseP (fun b => preemptibleKind b.ttype)).length + 1
        rw [List.length_eraseP_of_mem hmem hpa]
        have hpos : 0 < st.active.length := List.length_pos_of_mem hmem
        omega
      · show (st.active.eraseP (fun b => preemptibleKind b.ttype)).length ≤ st.active.length
        exact List.length_eraseP_le _
  · intro st a hmem hout
    unfold cancelLowPriorityTasks at hout
    cases hf : st.active.find? (fun b => preemptibleKind b.ttype) with
    | none =>
      rw [hf] at hout
      exact absurd hmem hout
    | some b =>
      rw [hf] at hout
      have hbm := List.mem_of_find?_eq_some hf
      have hpb0 := List.find?_some hf
      obtain ⟨c, l1, l2, hl1, hpc, hsplit, herase⟩ :=
        @List.exists_of_eraseP ATask (fun x => preemptibleKind x.ttype) st.active b hbm hpb0
      have hout2 : ¬ a ∈ l1 ++ l2 := by
        intro hc
        apply hout
        show a ∈ st.active.eraseP (fun b => preemptibleKind b.ttype)
        rw [herase]
        exact hc
      rw [hsplit] at hmem
      rcases List.mem_append.mp hmem with h | h
      · exact absurd (List.mem_append.mpr (Or.inl h)) hout2
      · rcases List.mem_cons.mp h with h | h
        · rw [h]; exact hpc
        · exact absurd (List.mem_append.mpr (Or.inr h)) hout2

/-- Witness for C8: part two applied at the concrete preemption state,
where the erased task `⟨0, analyze⟩` is indeed preemptible. -/
theorem preemption_single_victim_witness :
    (⟨0, .analyze⟩ : ATask) ∈ (runL preemptBase).active ∧
    ¬ (⟨0, .analyze⟩ : ATask) ∈ (cancelLowPriorityTasks (runL preemptBase)).active ∧
    preemptibleKind (⟨0, .analyze⟩ : ATask).ttype = true :=
  ⟨by decide, by decide,
    preemption_single_victim.2.1 (runL preemptBase) ⟨0, .analyze⟩ (by decide) (by decide)⟩

/-- The FIFO-violation schedule: sids 0-2 run `analyze` tasks 0-2; sid 3
(`normal`) then waits on the race over `[0, 1, 2]`; sid 4 (`high`)
preempts task 0 and is admitted as task 3; sid 5 (`normal`) waits on the
race over `[1, 2, 3]`; task 3 then completes, waking only sid 5. -/
def fifoTrace : List LEvent :=
  preemptBase ++
  [.submit .normal .clone, .submit .high .clone, .micro,
   .submit .normal .clone, .complete 3, .micro, .micro, .micro]

/-- **C7** (counterexample) FIFO admission within a tier fails: sid 3 and
sid 5 are both `normal` and both were submitted while all three slots were
occupied, sid 3 first; yet sid 5 is admitted (running task 4) while sid 3
has not been admitted at all — it still waits on its stale race snapshot
`[0, 1, 2]`, which does not contain the completed task 3. -/
theorem fifo_admission_counterexample :
    (runL fifoTrace).subs.get? 3 = some ⟨.normal, .clone, .waiting [0, 1, 2] false⟩ ∧
    (runL fifoTrace).subs.get? 5 = some ⟨.normal, .clone, .running 4⟩ ∧
    (runL fifoTrace).insertOrder = [0, 1, 2, 4, 5] ∧
    ¬ 3 ∈ (runL fifoTrace).insertOrder := by
  decide

/-- Two `normal` submissions (sids 3 and 4) waiting on the same race
snapshot `[0, 1, 2]`. -/
def fifoSameSnap : List LEvent :=
  preemptBase ++ [.submit .normal .clone, .submit .normal .clone]

/-- **C7** (amended) Same-tier waiters are admitted in submission order
exactly when they wait on the same snapshot of running-task promises:
whichever of the three running tasks completes, sid 3 (submitted first) is
admitted before sid 4, and both are admitted. -/
theorem fifo_admission_same_snapshot :
    (runL (fifoSameSnap ++ [.complete 0, .micro, .micro, .micro, .micro, .micro])).insertOrder
      = [0, 1, 2, 3, 4] ∧
    (runL (fifoSameSnap ++ [.complete 1, .micro, .micro, .micro, .micro, .micro])).insertOrder
      = [0, 1, 2, 3, 4] ∧
    (runL (fifoSameSnap ++ [.complete 2, .micro, .micro, .micro, .micro, .micro])).insertOrder
      = [0, 1, 2, 3, 4] := by
  decide

/-! ## Recording manager (`RecordingManager`)

State of the recorder, its stream and the duration timer.  `MediaRecorder`
is modelled by its standard semantics: `stop()` moves the recorder to the
`inactive` state synchronously; `stopRecording` is embedded through its
`stop`-event handler (which runs `cleanup`), since an interleaved duration
tick between `stop()` and the handler already observes the `inactive`
state and is a no-op.  Ghost state: `openStreams` lists acquired
microphone streams whose tracks have not been stopped, and `cbMax` counts
invocations of the dedicated `onMaxDurationReached` callback. -/

inductive MRState where
  | inactive
  | recording
  | paused
deriving DecidableEq, Repr

structure RMState where
  recorder : Option MRState
  streamIdx : Option Nat
  openStreams : List Nat
  nextStream : Nat
  startTime : Nat
  pausedDuration : Nat
  timerOn : Bool
  chunks : Nat
  cbMax : Nat
  maxDuration : Nat
deriving DecidableEq, Repr

/-- `cleanup()`: stop the duration timer, stop every track of the stream
and drop the stream reference, discard the recorder and buffered data. -/
def rmCleanup (st : RMState) : RMState :=
  { st with
      timerOn := false,
      openStreams :=
        match st.streamIdx with
        | some s => st.openStreams.erase s
        | none => st.openStreams,
      streamIdx := none,
      recorder := none,
      chunks := 0,
      startTime := 0,
      pausedDuration := 0 }

/-- `getCurrentDuration()` in milliseconds (the source divides by 1000;
comparisons against `maxDuration` seconds are scaled instead). -/
def getCurrentDurationMs (st : RMState) (now : Nat) : Nat :=
  match st.recorder with
  | none => 0
  | some .inactive => 0
  | some r => st.pausedDuration + (if r = .recording then now - st.startTime else 0)

/-- `stopRecording()`: resolves `null` (after a bare cleanup) when the
recorder is absent or inactive; otherwise stops the recorder, builds the
blob from the buffered chunks and cleans up. -/
def stopRecording (st : RMState) : Option Nat × RMState :=
  match st.recorder with
  | none => (none, rmCleanup st)
  | some .inactive => (none, rmCleanup st)
  | some _ => (if st.chunks > 0 then some st.chunks else none, rmCleanup st)

inductive RecErr where
  | unsupported
  | permissionDenied
  | recorderInitFailed
deriving DecidableEq, Repr

/-- `getUserMedia` succeeded: hold a fresh microphone stream. -/
def rmAcquire (st : RMState) : RMState :=
  { st with
      streamIdx := some st.nextStream,
      openStreams := st.openStreams ++ [st.nextStream],
      nextStream := st.nextStream + 1 }

/-- `startRecording()`: support check, cleanup of any previous recording,
microphone acquisition, recorder construction, start.  The platform
outcomes are the parameters: `supported` (browser support), `gumOk`
(`getUserMedia` grant), `recOk` (`new MediaRecorder` succeeds).  Every
failure path runs `cleanup` (via the `catch` block) before rethrowing. -/
def startRecording (st : RMState) (supported gumOk recOk : Bool) (now : Nat) :
    Except RecErr Unit × RMState :=
  match supported with
  | false => (.error .unsupported, rmCleanup st)
  | true =>
    match gumOk with
    | false => (.error .permissionDenied, rmCleanup (stopRecording st).2)
    | true =>
      match recOk with
      | false => (.error .recorderInitFailed, rmCleanup (rmAcquire (stopRecording st).2))
      | true =>
        (.ok (),
          { rmAcquire (stopRecording st).2 with
              recorder := some .recording,
              chunks := 0,
              startTime := now,
              pausedDuration := 0,
              timerOn := true })

def pauseRecording (st : RMState) (now : Nat) : RMState :=
  if st.recorder = some .recording then
    { st with
        recorder := some .paused,
        pausedDuration := st.pausedDuration + (now - st.startTime),
        timerOn := false }
  else st

def resumeRecording (st : RMState) (now : Nat) : RMState :=
  if st.recorder = some .paused then
    { st with recorder := some .recording, startTime := now, timerOn := true }
  else st

/-- One firing of the duration interval: `checkMaxDuration()` invokes the
dedicated `onMaxDurationReached` callback and stops the recording when the
accumulated duration has reached the ceiling. -/
def durationTick (st : RMState) (now : Nat) : RMState :=
  if st.timerOn then
    if st.maxDuration * 1000 ≤ getCurrentDurationMs st now then
      (stopRecording { st with cbMax := st.cbMax + 1 }).2
    else st
  else st

/-- `mediaRecorder.onerror`: report and clean up. -/
def deviceError (st : RMState) : RMState :=
  match st.recorder with
  | some _ => rmCleanup st
  | none => st

/-- `destroy()`: `stopRecording(); cleanup()`. -/
def rmDestroy (st : RMState) : RMState := rmCleanup (stopRecording st).2

inductive RecEvent where
  | tick (now : Nat)
  | pause (now : Nat)
  | resume (now : Nat)
  | userStop
  | devError
deriving DecidableEq, Repr

def recStep (st : RMState) : RecEvent → RMState
  | .tick now => durationTick st now
  | .pause now => pauseRecording st now
  | .resume now => resumeRecording st now
  | .userStop => (stopRecording st).2
  | .devError => deviceError st

def runRecEvents (st : RMState) (es : List RecEvent) : RMState :=
  es.foldl recStep st

/-- The microphone is fully released: no stream reference is held and no
acquired stream has unstopped tracks. -/
def StreamReleased (st : RMState) : Prop :=
  st.streamIdx = none ∧ st.openStreams = []

/-- Stream bookkeeping invariant: the only possibly-open stream is the
currently referenced one. -/
def StreamInv (st : RMState) : Prop :=
  st.openStreams =
    match st.streamIdx with
    | some s => [s]
    | none => []

/-- Full invariant of the states visible to callers (between method
calls): additionally, when no recorder exists no stream is held. -/
def RMWF (st : RMState) : Prop :=
  StreamInv st ∧ (st.recorder = none → st.streamIdx = none)

theorem rmCleanup_released {st : RMState} (h1 : StreamInv st) :
    StreamReleased (rmCleanup st) := by
  unfold StreamInv at h1
  constructor
  · rfl
  · show (match st.streamIdx with
      | some s => st.openStreams.erase s
      | none => st.openStreams) = []
    cases hs : st.streamIdx with
    | none =>
      rw [hs] at h1
      exact h1
    | some s =>
      rw [hs] at h1
      have h2 : st.openStreams = [s] := h1
      rw [h2]
      simp [List.erase_cons]

theorem released_wf {st : RMState} (h : StreamReleased st) (_hr : st.recorder = none) :
    RMWF st := by
  refine ⟨?_, fun _ => h.1⟩
  show st.openStreams = _
  rw [h.1, h.2]

theorem rmCleanup_wf {st : RMState} (h1 : StreamInv st) : RMWF (rmCleanup st) :=
  released_wf (rmCleanup_released h1) rfl

theorem stopRecording_released {st : RMState} (h1 : StreamInv st) :
    StreamReleased (stopRecording st).2 := by
  unfold stopRecording
  cases st.recorder with
  | none => exact rmCleanup_released h1
  | some r => cases r <;> exact rmCleanup_released h1

theorem stopRecording_recorder_none (st : RMState) :
    (stopRecording st).2.recorder = none := by
  unfold stopRecording
  cases st.recorder with
  | none => rfl
  | some r => cases r <;> rfl

theorem stopRecording_wf {st : RMState} (h1 : StreamInv st) : RMWF (stopRecording st).2 :=
  released_wf (stopRecording_released h1) (stopRecording_recorder_none st)

theorem acquire_streamInv {st : RMState} (h : StreamReleased st) :
    StreamInv (rmAcquire st) := by
  show st.openStreams ++ [st.nextStream] = [st.nextStream]
  rw [h.2]
  rfl

theorem startRecording_wf {st : RMState} (h1 : StreamInv st) (supported gumOk recOk : Bool)
    (now : Nat) : RMWF (startRecording st supported gumOk recOk now).2 := by
  have hmid := stopRecording_released h1
  have hmid2 := acquire_streamInv hmid
  cases supported with
  | false => exact rmCleanup_wf h1
  | true =>
    cases gumOk with
    | false => exact rmCleanup_wf (stopRecording_wf h1).1
    | true =>
      cases recOk with
      | false => exact rmCleanup_wf hmid2
      | true =>
        refine ⟨hmid2, ?_⟩
        intro hc
        cases hc

/-- **C4** Microphone-release invariant: from any well-formed recorder
state, every exit path — a `startRecording` call that fails (any of the
three failure reasons), a normal `stopRecording`, a device error
mid-recording, and `destroy` — leaves the microphone fully released:
every acquired track stopped and the stream reference cleared. -/
theorem recording_stream_released_on_exit (st : RMState) (h : RMWF st) :
    (∀ supported gumOk recOk : Bool, ∀ now : Nat, ∀ e : RecErr,
      (startRecording st supported gumOk recOk now).1 = .error e →
      StreamReleased (startRecording st supported gumOk recOk now).2) ∧
    StreamReleased (stopRecording st).2 ∧
    StreamReleased (deviceError st) ∧
    StreamReleased (rmDestroy st) := by
  refine ⟨?_, stopRecording_released h.1, ?_, ?_⟩
  · intro supported gumOk recOk now e _
    cases supported with
    | false => exact rmCleanup_released h.1
    | true =>
      cases gumOk with
      | false => exact rmCleanup_released (stopRecording_wf h.1).1
      | true =>
        cases recOk with
        | false => exact rmCleanup_released (acquire_streamInv (stopRecording_released h.1))
        | true =>
          rename_i he
          cases he
  · unfold deviceError
    cases hr : st.recorder with
    | some r => exact rmCleanup_released h.1
    | none =>
      have hs : st.streamIdx = none := h.2 hr
      refine ⟨hs, ?_⟩
      have h1 := h.1
      unfold StreamInv at h1
      rw [hs] at h1
      exact h1
  · exact rmCleanup_released (stopRecording_wf h.1).1

/-- A recorder in the middle of a recording: stream 0 held, timer on. -/
def rmDemo : RMState :=
  { recorder := some .recording, streamIdx := some 0, openStreams := [0], nextStream := 1,
    startTime := 0, pausedDuration := 0, timerOn := true, chunks := 0, cbMax := 0,
    maxDuration := 300 }

/-- Witness for C4 at `rmDemo`. -/
theorem recording_stream_released_on_exit_witness :
    (∀ supported gumOk recOk : Bool, ∀ now : Nat, ∀ e : RecErr,
      (startRecording rmDemo supported gumOk recOk now).1 = .error e →
      StreamReleased (startRecording rmDemo supported gumOk recOk now).2) ∧
    StreamReleased (stopRecording rmDemo).2 ∧
    StreamReleased (deviceError rmDemo) ∧
    StreamReleased (rmDestroy rmDemo) :=
  recording_stream_released_on_exit rmDemo ⟨rfl, fun hc => by cases hc⟩

/-- State invariant behind the "exactly once" guarantee: the max-duration
callback has fired at most once, and once it has fired the recorder is
gone and the duration timer stopped, so no event can fire it again
(without a new `startRecording`). -/
def RecInv (st : RMState) : Prop :=
  st.cbMax ≤ 1 ∧ (st.cbMax = 1 → st.recorder = none ∧ st.timerOn = false)

theorem rmCleanup_cbMax (st : RMState) : (rmCleanup st).cbMax = st.cbMax := rfl

theorem stopRecording_cbMax (st : RMState) : (stopRecording st).2.cbMax = st.cbMax := by
  unfold stopRecording
  cases st.recorder with
  | none => rfl
  | some r => cases r <;> rfl

theorem stopRecording_timerOff (st : RMState) : (stopRecording st).2.timerOn = false := by
  unfold stopRecording
  cases st.recorder with
  | none => rfl
  | some r => cases r <;> rfl

theorem recInv_step {st : RMState} (h : RecInv st) (e : RecEvent) :
    RecInv (recStep st e) := by
  obtain ⟨h1, h2⟩ := h
  cases e with
  | tick now =>
    show RecInv (durationTick st now)
    unfold durationTick
    by_cases ht : st.timerOn = true
    · rw [if_pos ht]
      by_cases hd : st.maxDuration * 1000 ≤ getCurrentDurationMs st now
      · rw [if_pos hd]
        have hc0 : st.cbMax = 0 := by
          rcases Nat.lt_or_ge st.cbMax 1 with hlt | hge
          · omega
          · exfalso
            have := (h2 (by omega)).2
            rw [ht] at this
            cases this
        constructor
        · rw [stopRecording_cbMax]
          show st.cbMax + 1 ≤ 1
          omega
        · intro _
          exact ⟨stopRecording_recorder_none _, stopRecording_timerOff _⟩
      · rw [if_neg hd]; exact ⟨h1, h2⟩
    · have ht2 : st.timerOn = false := by
        cases hb : st.timerOn
        · rfl
        · exact absurd hb ht
      rw [ht2]
      simp only [Bool.false_eq_true, if_false]
      exact ⟨h1, h2⟩
  | pause now =>
    show RecInv (pauseRecording st now)
    unfold pauseRecording
    by_cases hr : st.recorder = some .recording
    · rw [if_pos hr]
      refine ⟨h1, ?_⟩
      intro hc
      exfalso
      rw [(h2 hc).1] at hr
      cases hr
    · rw [if_neg hr]; exact ⟨h1, h2⟩
  | resume now =>
    show RecInv (resumeRecording st now)
    unfold resumeRecording
    by_cases hr : st.recorder = some .paused
    · rw [if_pos hr]
      refine ⟨h1, ?_⟩
      intro hc
      exfalso
      rw [(h2 hc).1] at hr
      cases hr
    · rw [if_neg hr]; exact ⟨h1, h2⟩
  | userStop =>
    show RecInv (stopRecording st).2
    constructor
    · rw [stopRecording_cbMax]; exact h1
    · intro _
      exact ⟨stopRecording_recorder_none _, stopRecording_timerOff _⟩
  | devError =>
    show RecInv (deviceError st)
    unfold deviceError
    cases st.recorder with
    | none => exact ⟨h1, h2⟩
    | some r =>
      constructor
      · rw [rmCleanup_cbMax]; exact h1
      · intro _
        exact ⟨rfl, rfl⟩

theorem recInv_run {st : RMState} (h : RecInv st) (es : List RecEvent) :
    RecInv (runRecEvents st es) := by
  induction es generalizing st with
  | nil => exact h
  | cons e es ih => exact ih (recInv_step h e)

theorem cbMax_mono_step (st : RMState) (e : RecEvent) :
    st.cbMax ≤ (recStep st e).cbMax := by
  cases e with
  | tick now =>
    show st.cbMax ≤ (durationTick st now).cbMax
    unfold durationTick
    by_cases ht : st.timerOn = true
    · rw [if_pos ht]
      by_cases hd : st.maxDuration * 1000 ≤ getCurrentDurationMs st now
      · rw [if_pos hd, stopRecording_cbMax]
        show st.cbMax ≤ st.cbMax + 1
        omega
      · rw [if_neg hd]
    · have ht2 : st.timerOn = false := by
        cases hb : st.timerOn
        · rfl
        · exact absurd hb ht
      rw [ht2]
      simp only [Bool.false_eq_true, if_false]
      exact Nat.le_refl _
  | pause now =>
    show st.cbMax ≤ (pauseRecording st now).cbMax
    unfold pauseRecording
    by_cases hr : st.recorder = some .recording
    · rw [if_pos hr]
    · rw [if_neg hr]
  | resume now =>
    show st.cbMax ≤ (resumeRecording st now).cbMax
    unfold resumeRecording
    by_cases hr : st.recorder = some .paused
    · rw [if_pos hr]
    · rw [if_neg hr]
  | userStop =>
    show st.cbMax ≤ (stopRecording st).2.cbMax
    rw [stopRecording_cbMax]
  | devError =>
    show st.cbMax ≤ (deviceError st).cbMax
    unfold deviceError
    cases st.recorder with
    | none => exact Nat.le_refl _
    | some r => rw [rmCleanup_cbMax]

theorem cbMax_mono_run (st : RMState) (es : List RecEvent) :
    st.cbMax ≤ (runRecEvents st es).cbMax := by
  induction es generalizing st with
  | nil => exact Nat.le_refl _
  | cons e es ih => exact Nat.le_trans (cbMax_mono_step st e) (ih (recStep st e))

/-- **C6** Automatic stop at max duration: once the accumulated active
duration reaches the ceiling, the next duration tick stops the recording
and invokes the dedicated `onMaxDurationReached` callback; through every
continuation of the run (without a new `startRecording`) the callback
count stays exactly one — never zero, never more.  User-initiated stop
never invokes it. -/
theorem max_duration_callback_exactly_once (st : RMState) (now : Nat)
    (es : List RecEvent) (hinv : RecInv st) (ht : st.timerOn = true)
    (hc : st.cbMax = 0) (hd : st.maxDuration * 1000 ≤ getCurrentDurationMs st now) :
    (recStep st (.tick now)).cbMax = 1 ∧
    (recStep st (.tick now)).recorder = none ∧
    (runRecEvents (recStep st (.tick now)) es).cbMax = 1 ∧
    (∀ s : RMState, (recStep s .userStop).cbMax = s.cbMax) := by
  have hfire : (recStep st (.tick now)).cbMax = 1 := by
    show (durationTick st now).cbMax = 1
    unfold durationTick
    rw [ht]
    simp only [if_true]
    rw [if_pos hd, stopRecording_cbMax]
    show st.cbMax + 1 = 1
    omega
  refine ⟨hfire, ?_, ?_, ?_⟩
  · show (durationTick st now).recorder = none
    unfold durationTick
    rw [ht]
    simp only [if_true]
    rw [if_pos hd]
    exact stopRecording_recorder_none _
  · have hinv2 := recInv_step hinv (.tick now)
    have hup := (recInv_run hinv2 es).1
    have hlow := cbMax_mono_run (recStep st (.tick now)) es
    rw [hfire] at hlow
    omega
  · intro s
    show (stopRecording s).2.cbMax = s.cbMax
    exact stopRecording_cbMax s

/-- Witness for C6: a recording that started at time 0 with the default
300-second ceiling, ticked at 300000ms. -/
theorem max_duration_callback_exactly_once_witness :
    (recStep rmDemo (.tick 300000)).cbMax = 1 ∧
    (recStep rmDemo (.tick 300000)).recorder = none ∧
    (runRecEvents (recStep rmDemo (.tick 300000))
      [.tick 301000, .pause 301500, .resume 302000, .userStop]).cbMax = 1 ∧
    (∀ s : RMState, (recStep s .userStop).cbMax = s.cbMax) :=
  max_duration_callback_exactly_once rmDemo 300000
    [.tick 301000, .pause 301500, .resume 302000, .userStop]
    ⟨by decide, fun hh => absurd hh (by decide)⟩ rfl rfl (by decide)

end VoiceForge
